import Mathlib

/-!
# go-shellquote: the word splitter of `unquote.go`

A shallow embedding of `Token`, `Split` and `splitWord` and of the standard
library functions they call, followed by the properties of the splitter.

A Go string is its sequence of bytes.  A byte is written as a natural number;
the bytes of a real string are below 256, and every theorem below holds for
all lists of naturals, hence for all strings.

A run that produces no result (an index out of range, or the step budget of a
loop used up) is `none`; the totality lemmas show that this never happens in
`splitWord`, `Token` and `Split`.
-/

namespace Shellquote

/-- A Go `string`, and also a Go `[]byte`: the sequence of its bytes. -/
abbrev GoString := List Nat

/-- The three error values of `unquote.go`. -/
inductive Error where
  | UnterminatedSingleQuoteError
  | UnterminatedDoubleQuoteError
  | UnterminatedEscapeError
  deriving DecidableEq, Repr

/-! ## Standard library: `unicode/utf8` and `strings` -/

/-- The constant `utf8.RuneError`. -/
def RuneError : Nat := 0xFFFD

/-- The table `first` of `unicode/utf8`, by ranges of the first byte. -/
def first (b : Nat) : Nat :=
  if b < 0x80 then 0xF0
  else if b < 0xC2 then 0xF1
  else if b < 0xE0 then 0x02
  else if b = 0xE0 then 0x13
  else if b < 0xED then 0x03
  else if b = 0xED then 0x23
  else if b < 0xF0 then 0x03
  else if b = 0xF0 then 0x34
  else if b < 0xF4 then 0x04
  else if b = 0xF4 then 0x44
  else 0xF1

/-- The table `acceptRanges` of `unicode/utf8`: bounds of the second byte. -/
def acceptRanges (i : Nat) : Nat × Nat :=
  match i with
  | 0 => (0x80, 0xBF)
  | 1 => (0xA0, 0xBF)
  | 2 => (0x80, 0x9F)
  | 3 => (0x90, 0xBF)
  | 4 => (0x80, 0x8F)
  | _ => (0, 0)

/-- The function `utf8.DecodeRuneInString`: the first code point of `s` and
its width in bytes; `(RuneError, 0)` on the empty string and `(RuneError, 1)`
on an invalid encoding. -/
def DecodeRuneInString (s : GoString) : Nat × Nat :=
  let n := s.length
  if n < 1 then (RuneError, 0)
  else
    let s0 := s.getD 0 0
    let x := first s0
    if x ≥ 0xF0 then
      -- mask is all ones exactly when the low bit of x is set (x = xx)
      (if x % 2 = 0 then s0 else RuneError, 1)
    else
      let sz := x &&& 7
      let accept := acceptRanges (x >>> 4)
      if n < sz then (RuneError, 1)
      else
        let s1 := s.getD 1 0
        if s1 < accept.1 ∨ accept.2 < s1 then (RuneError, 1)
        else if sz ≤ 2 then (((s0 &&& 0x1F) <<< 6) ||| (s1 &&& 0x3F), 2)
        else
          let s2 := s.getD 2 0
          if s2 < 0x80 ∨ 0xBF < s2 then (RuneError, 1)
          else if sz ≤ 3 then
            (((s0 &&& 0x0F) <<< 12) ||| ((s1 &&& 0x3F) <<< 6) ||| (s2 &&& 0x3F), 3)
          else
            let s3 := s.getD 3 0
            if s3 < 0x80 ∨ 0xBF < s3 then (RuneError, 1)
            else
              (((s0 &&& 0x07) <<< 18) ||| ((s1 &&& 0x3F) <<< 12) |||
                ((s2 &&& 0x3F) <<< 6) ||| (s3 &&& 0x3F), 4)

/-- The function `utf8.EncodeRune`: the bytes of the encoding of `r`. -/
def EncodeRune (r : Nat) : GoString :=
  if r ≤ 0x7F then [r]
  else if r ≤ 0x7FF then [0xC0 ||| (r >>> 6), 0x80 ||| (r &&& 0x3F)]
  else if r > 0x10FFFF ∨ (0xD800 ≤ r ∧ r ≤ 0xDFFF) then [0xEF, 0xBF, 0xBD]
  else if r ≤ 0xFFFF then
    [0xE0 ||| (r >>> 12), 0x80 ||| ((r >>> 6) &&& 0x3F), 0x80 ||| (r &&& 0x3F)]
  else
    [0xF0 ||| (r >>> 18), 0x80 ||| ((r >>> 12) &&& 0x3F),
      0x80 ||| ((r >>> 6) &&& 0x3F), 0x80 ||| (r &&& 0x3F)]

/-- The loop of `strings.IndexRune`: walk the code points of `s` from byte
offset `i`, at most `fuel` of them. -/
def IndexRuneFrom : Nat → GoString → Nat → Nat → Int
  | 0, _, _, _ => -1
  | fuel + 1, s, r, i =>
    if s.length = 0 then -1
    else if (DecodeRuneInString s).1 = r then (i : Int)
    else IndexRuneFrom fuel (s.drop (DecodeRuneInString s).2) r
      (i + (DecodeRuneInString s).2)

/-- The function `strings.IndexRune`: the byte index of the first instance of
the code point `r` in `s`, or `-1`. -/
def IndexRune (s : GoString) (r : Nat) : Int :=
  IndexRuneFrom s.length s r 0

/-- The function `strings.ContainsRune`. -/
def ContainsRune (s : GoString) (r : Nat) : Bool :=
  decide (IndexRune s r ≥ 0)

/-- The slice expression `s[lo:hi]`; `none` when an index is out of range. -/
def slice (s : GoString) (lo hi : Int) : Option GoString :=
  if 0 ≤ lo ∧ lo ≤ hi ∧ hi ≤ (s.length : Int) then
    some ((s.take hi.toNat).drop lo.toNat)
  else none

/-- The slice expression `s[lo:]`. -/
def sliceFrom (s : GoString) (lo : Int) : Option GoString :=
  slice s lo s.length

/-- The slice expression `s[:hi]`. -/
def sliceTo (s : GoString) (hi : Int) : Option GoString :=
  slice s 0 hi

/-! ## `unquote.go` -/

def splitChars : GoString := [0x20, 0x0A, 0x09]
def singleChar : Nat := 0x27
def doubleChar : Nat := 0x22
def escapeChar : Nat := 0x5C
def doubleEscapeChars : GoString := [0x24, 0x60, 0x22, 0x0A, 0x5C]

/-- The type `byteWriter`: the bytes written so far. -/
abbrev byteWriter := GoString

/-- The method `(*byteWriter).Reset`. -/
def byteWriter.Reset (_w : byteWriter) : byteWriter := []

/-- The method `(*byteWriter).WriteString`. -/
def byteWriter.WriteString (w : byteWriter) (s : GoString) : byteWriter := w ++ s

/-- The method `(*byteWriter).WriteRune`. -/
def byteWriter.WriteRune (w : byteWriter) (r : Nat) : byteWriter := w ++ EncodeRune r

/-- The method `(*byteWriter).String`. -/
def byteWriter.String (w : byteWriter) : GoString := w

/-- The method `(*byteWriter).Bytes`. -/
def byteWriter.Bytes (w : byteWriter) : GoString := w

/-- What `splitWord` returns, together with the writer it leaves behind. -/
structure WordResult where
  word : GoString
  remainder : GoString
  err : Option Error
  buf : byteWriter
  deriving DecidableEq, Repr

/-- The control points of `splitWord`: the head of the loop of block `raw`,
the blocks `escape` and `single`, and the head of the loop of block `double`,
each with the variables live there. -/
inductive State where
  | raw (input cur : GoString) (buf : byteWriter)
  | escape (input : GoString) (buf : byteWriter)
  | single (input : GoString) (buf : byteWriter)
  | double (input cur : GoString) (buf : byteWriter)
  deriving DecidableEq, Repr

/-- One pass through a control point of `splitWord`: one iteration of a loop,
or one of the straight-line blocks; either the next control point or the
values returned. -/
def step : State → Option (State ⊕ WordResult)
  | .raw input cur buf =>
    if cur.length > 0 then
      let c := (DecodeRuneInString cur).1
      let l := (DecodeRuneInString cur).2
      (sliceFrom cur l).bind fun cur =>
      if c = singleChar then
        (slice input 0 ((input.length : Int) - cur.length - l)).bind fun s =>
        some (.inl (.single cur (buf.WriteString s)))
      else if c = doubleChar then
        (slice input 0 ((input.length : Int) - cur.length - l)).bind fun s =>
        some (.inl (.double cur cur (buf.WriteString s)))
      else if c = escapeChar then
        (slice input 0 ((input.length : Int) - cur.length - l)).bind fun s =>
        some (.inl (.escape cur (buf.WriteString s)))
      else if ContainsRune splitChars c then
        (slice input 0 ((input.length : Int) - cur.length - l)).bind fun s =>
        some (.inr ⟨(buf.WriteString s).String, cur, none, buf.WriteString s⟩)
      else some (.inl (.raw input cur buf))
    else if input.length > 0 then
      some (.inr ⟨(buf.WriteString input).String, [], none, buf.WriteString input⟩)
    else some (.inr ⟨buf.String, input, none, buf⟩)
  | .escape input buf =>
    if input.length = 0 then
      some (.inr ⟨[], [], some .UnterminatedEscapeError, buf⟩)
    else
      let c := (DecodeRuneInString input).1
      let l := (DecodeRuneInString input).2
      (if c = 0x0A then some buf
       else (sliceTo input l).bind fun s => some (buf.WriteString s)).bind fun buf =>
      (sliceFrom input l).bind fun input =>
      some (.inl (.raw input input buf))
  | .single input buf =>
    let i := IndexRune input singleChar
    if i = -1 then
      some (.inr ⟨[], [], some .UnterminatedSingleQuoteError, buf⟩)
    else
      (slice input 0 i).bind fun s =>
      (sliceFrom input (i + 1)).bind fun input =>
      some (.inl (.raw input input (buf.WriteString s)))
  | .double input cur buf =>
    if cur.length > 0 then
      let c := (DecodeRuneInString cur).1
      let l := (DecodeRuneInString cur).2
      (sliceFrom cur l).bind fun cur =>
      if c = doubleChar then
        (slice input 0 ((input.length : Int) - cur.length - l)).bind fun s =>
        some (.inl (.raw cur cur (buf.WriteString s)))
      else if c = escapeChar then
        let c2 := (DecodeRuneInString cur).1
        let l2 := (DecodeRuneInString cur).2
        (sliceFrom cur l2).bind fun cur =>
        if ContainsRune doubleEscapeChars c2 then
          (slice input 0 ((input.length : Int) - cur.length - l - l2)).bind fun s =>
          if c2 = 0x0A then some (.inl (.double cur cur (buf.WriteString s)))
          else some (.inl (.double cur cur ((buf.WriteString s).WriteRune c2)))
        else some (.inl (.double input cur buf))
      else some (.inl (.double input cur buf))
    else some (.inr ⟨[], [], some .UnterminatedDoubleQuoteError, buf⟩)

/-- Run `splitWord` from a control point for at most `fuel` passes. -/
def run : Nat → State → Option WordResult
  | 0, _ => none
  | fuel + 1, s =>
    match step s with
    | none => none
    | some (.inr r) => some r
    | some (.inl s') => run fuel s'

/-- The function `splitWord`: reset the writer and enter block `raw`.  Every
pass consumes at least one byte, so `len(input) + 1` passes are enough. -/
def splitWord (input : GoString) (buf : byteWriter) : Option WordResult :=
  run (input.length + 1) (.raw input input buf.Reset)

/-- The last three lines of the loop body of `Token`: split one word with the
caller's buffer as writer. -/
def tokenWord (input : GoString) (buf : GoString) :
    Option (GoString × GoString × GoString × Option Error) :=
  (splitWord input buf).bind fun r => some (r.word, r.remainder, r.buf.Bytes, r.err)

/-- The loop of `Token`, for at most `fuel` iterations. -/
def TokenLoop : Nat → GoString → GoString →
    Option (GoString × GoString × GoString × Option Error)
  | 0, _, _ => none
  | fuel + 1, input, buf =>
    if input ≠ [] then
      let r := (DecodeRuneInString input).1
      let size := (DecodeRuneInString input).2
      if ContainsRune splitChars r then
        (sliceFrom input size).bind fun input => TokenLoop fuel input buf
      else if r = escapeChar then
        (sliceFrom input size).bind fun lookahead =>
        if lookahead.length = 0 then
          some ([], input, buf, some .UnterminatedEscapeError)
        else
          let r1 := (DecodeRuneInString lookahead).1
          let size1 := (DecodeRuneInString lookahead).2
          if r1 = 0x0A then
            (sliceFrom lookahead size1).bind fun input => TokenLoop fuel input buf
          else tokenWord input buf
      else tokenWord input buf
    else some ([], [], buf, none)

/-- The function `Token`: `(token, unparsed, reused, err)`.  Every iteration
of its loop consumes at least one byte. -/
def Token (input : GoString) (buf : GoString) :
    Option (GoString × GoString × GoString × Option Error) :=
  TokenLoop (input.length + 1) input buf

/-- The loop of `Split`, for at most `fuel` iterations, with the values of
`words` and `buf` on entry. -/
def SplitLoop : Nat → GoString → List GoString → byteWriter →
    Option (List GoString × Option Error)
  | 0, _, _, _ => none
  | fuel + 1, input, words, buf =>
    if input.length > 0 then
      let c := (DecodeRuneInString input).1
      let l := (DecodeRuneInString input).2
      if ContainsRune splitChars c then
        (sliceFrom input l).bind fun input => SplitLoop fuel input words buf
      else
        let word (_ : Unit) : Option (List GoString × Option Error) :=
          (splitWord input buf).bind fun r =>
          if r.err ≠ none then some (words, r.err)
          else SplitLoop fuel r.remainder (words ++ [r.word]) r.buf
        if c = escapeChar then
          (sliceFrom input l).bind fun next =>
          if next.length = 0 then some (words, some .UnterminatedEscapeError)
          else
            let c2 := (DecodeRuneInString next).1
            let l2 := (DecodeRuneInString next).2
            if c2 = 0x0A then
              (sliceFrom next l2).bind fun input => SplitLoop fuel input words buf
            else word ()
        else word ()
    else some (words, none)

/-- The function `Split`: `(words, err)`.  Every iteration of its loop
consumes at least one byte. -/
def Split (input : GoString) : Option (List GoString × Option Error) :=
  SplitLoop (input.length + 1) input [] []

/-! ## A byte-at-a-time scanner

`splitWord` flushes spans of its input and decodes code points; the scanner
below reads one byte at a time and appends to the word under construction.
`Token_eq_scanTok` and `Split_eq_scanAll` show that `Token` and `Split`
compute exactly what this scanner computes. -/

/-- The modes of the scanner: between words (`skip`, and `skipEsc` after a
backslash met there), in a word outside quotes (`raw`, and `esc` after a
backslash), in single quotes, in double quotes (`dbl`, and `dblEsc` after a
backslash). -/
inductive Mode where
  | skip | skipEsc | raw | esc | sgl | dbl | dblEsc
  deriving DecidableEq, Repr

/-- The outcome of scanning one token: a word and the input after it, an
error and the input returned with it, or nothing left. -/
inductive Tok where
  | word (w rem : GoString)
  | fail (e : Error) (rem : GoString)
  | eof
  deriving DecidableEq, Repr

/-- Scan one token from the bytes `cs` in mode `m`, with the bytes `acc` of
the word read so far. -/
def scanTok : Mode → GoString → GoString → Tok
  | .skip, [], _ => .eof
  | .skip, c :: cs, _ =>
    if c ∈ splitChars then scanTok .skip cs []
    else if c = escapeChar then scanTok .skipEsc cs []
    else if c = singleChar then scanTok .sgl cs []
    else if c = doubleChar then scanTok .dbl cs []
    else scanTok .raw cs [c]
  | .skipEsc, [], _ => .fail .UnterminatedEscapeError [escapeChar]
  | .skipEsc, c :: cs, _ =>
    if c = 0x0A then scanTok .skip cs [] else scanTok .raw cs [c]
  | .raw, [], acc => .word acc []
  | .raw, c :: cs, acc =>
    if c = singleChar then scanTok .sgl cs acc
    else if c = doubleChar then scanTok .dbl cs acc
    else if c = escapeChar then scanTok .esc cs acc
    else if c ∈ splitChars then .word acc cs
    else scanTok .raw cs (acc ++ [c])
  | .esc, [], _ => .fail .UnterminatedEscapeError []
  | .esc, c :: cs, acc =>
    if c = 0x0A then scanTok .raw cs acc else scanTok .raw cs (acc ++ [c])
  | .sgl, [], _ => .fail .UnterminatedSingleQuoteError []
  | .sgl, c :: cs, acc =>
    if c = singleChar then scanTok .raw cs acc else scanTok .sgl cs (acc ++ [c])
  | .dbl, [], _ => .fail .UnterminatedDoubleQuoteError []
  | .dbl, c :: cs, acc =>
    if c = doubleChar then scanTok .raw cs acc
    else if c = escapeChar then scanTok .dblEsc cs acc
    else scanTok .dbl cs (acc ++ [c])
  | .dblEsc, [], _ => .fail .UnterminatedDoubleQuoteError []
  | .dblEsc, c :: cs, acc =>
    if c ∈ doubleEscapeChars then
      if c = 0x0A then scanTok .dbl cs acc else scanTok .dbl cs (acc ++ [c])
    else scanTok .dbl cs (acc ++ [escapeChar, c])

/-- Put a word in front of the words of a result of `Split`. -/
def consWord (w : GoString) (r : List GoString × Option Error) :
    List GoString × Option Error :=
  (w :: r.1, r.2)

/-- Scan all the words of `cs` from mode `m`: the words, and the error that
stopped the scan, if any. -/
def scanAll : Mode → GoString → GoString → List GoString × Option Error
  | .skip, [], _ => ([], none)
  | .skip, c :: cs, _ =>
    if c ∈ splitChars then scanAll .skip cs []
    else if c = escapeChar then scanAll .skipEsc cs []
    else if c = singleChar then scanAll .sgl cs []
    else if c = doubleChar then scanAll .dbl cs []
    else scanAll .raw cs [c]
  | .skipEsc, [], _ => ([], some .UnterminatedEscapeError)
  | .skipEsc, c :: cs, _ =>
    if c = 0x0A then scanAll .skip cs [] else scanAll .raw cs [c]
  | .raw, [], acc => ([acc], none)
  | .raw, c :: cs, acc =>
    if c = singleChar then scanAll .sgl cs acc
    else if c = doubleChar then scanAll .dbl cs acc
    else if c = escapeChar then scanAll .esc cs acc
    else if c ∈ splitChars then consWord acc (scanAll .skip cs [])
    else scanAll .raw cs (acc ++ [c])
  | .esc, [], _ => ([], some .UnterminatedEscapeError)
  | .esc, c :: cs, acc =>
    if c = 0x0A then scanAll .raw cs acc else scanAll .raw cs (acc ++ [c])
  | .sgl, [], _ => ([], some .UnterminatedSingleQuoteError)
  | .sgl, c :: cs, acc =>
    if c = singleChar then scanAll .raw cs acc else scanAll .sgl cs (acc ++ [c])
  | .dbl, [], _ => ([], some .UnterminatedDoubleQuoteError)
  | .dbl, c :: cs, acc =>
    if c = doubleChar then scanAll .raw cs acc
    else if c = escapeChar then scanAll .dblEsc cs acc
    else scanAll .dbl cs (acc ++ [c])
  | .dblEsc, [], _ => ([], some .UnterminatedDoubleQuoteError)
  | .dblEsc, c :: cs, acc =>
    if c ∈ doubleEscapeChars then
      if c = 0x0A then scanAll .dbl cs acc else scanAll .dbl cs (acc ++ [c])
    else scanAll .dbl cs (acc ++ [escapeChar, c])

/-- The word, remainder and error that a token outcome stands for. -/
def Tok.triple : Tok → GoString × GoString × Option Error
  | .word w rem => (w, rem, none)
  | .fail e rem => ([], rem, some e)
  | .eof => ([], [], none)

/-- Where the scanner stands after a part of the input: the words completed,
the mode, and the bytes of the word under construction. -/
structure Progress where
  words : List GoString
  mode : Mode
  acc : GoString
  deriving DecidableEq, Repr

/-- Put a completed word in front of the words of a progress. -/
def Progress.cons (w : GoString) (p : Progress) : Progress :=
  ⟨w :: p.words, p.mode, p.acc⟩

/-- Run the scanner from mode `m` over all of `cs` without ending the input. -/
def scanEnd : Mode → GoString → GoString → Progress
  | m, [], acc => ⟨[], m, acc⟩
  | .skip, c :: cs, _ =>
    if c ∈ splitChars then scanEnd .skip cs []
    else if c = escapeChar then scanEnd .skipEsc cs []
    else if c = singleChar then scanEnd .sgl cs []
    else if c = doubleChar then scanEnd .dbl cs []
    else scanEnd .raw cs [c]
  | .skipEsc, c :: cs, _ =>
    if c = 0x0A then scanEnd .skip cs [] else scanEnd .raw cs [c]
  | .raw, c :: cs, acc =>
    if c = singleChar then scanEnd .sgl cs acc
    else if c = doubleChar then scanEnd .dbl cs acc
    else if c = escapeChar then scanEnd .esc cs acc
    else if c ∈ splitChars then (scanEnd .skip cs []).cons acc
    else scanEnd .raw cs (acc ++ [c])
  | .esc, c :: cs, acc =>
    if c = 0x0A then scanEnd .raw cs acc else scanEnd .raw cs (acc ++ [c])
  | .sgl, c :: cs, acc =>
    if c = singleChar then scanEnd .raw cs acc else scanEnd .sgl cs (acc ++ [c])
  | .dbl, c :: cs, acc =>
    if c = doubleChar then scanEnd .raw cs acc
    else if c = escapeChar then scanEnd .dblEsc cs acc
    else scanEnd .dbl cs (acc ++ [c])
  | .dblEsc, c :: cs, acc =>
    if c ∈ doubleEscapeChars then
      if c = 0x0A then scanEnd .dbl cs acc else scanEnd .dbl cs (acc ++ [c])
    else scanEnd .dbl cs (acc ++ [escapeChar, c])

/-- Continue a progress over the rest `q` of the input, to the end. -/
def Progress.finish (p : Progress) (q : GoString) : List GoString × Option Error :=
  (p.words ++ (scanAll p.mode q p.acc).1, (scanAll p.mode q p.acc).2)

/-- The result of `Split` that starts with a token outcome: the word followed
by the words of the input after it, or the error, or nothing. -/
def Tok.thenAll : Tok → List GoString × Option Error
  | .word w rem => consWord w (scanAll .skip rem [])
  | .fail e _ => ([], some e)
  | .eof => ([], none)

/-! ## Definitions of the specification -/

/-- Modelled from the spec: the quoting of one word by `Join`, which is not
among the sources: a single quote, the word with every single quote replaced
by the four characters `'\''`, and a single quote. -/
def quoteWord (w : GoString) : GoString :=
  singleChar :: (w.flatMap fun c =>
    if c = singleChar then [singleChar, escapeChar, singleChar, singleChar] else [c]) ++
    [singleChar]

/-- Modelled from the spec: the function `Join`, which is not among the
sources: the quoted words, joined with one space. -/
def Join (S : List GoString) : GoString :=
  List.intercalate [0x20] (S.map quoteWord)

/-- The reference definition of the whitespace-collapse property: the maximal
runs of non-separator bytes of the input, in order: cut the input at every
separator and drop the empty pieces. -/
def fields (input : GoString) : List GoString :=
  (input.splitOnP fun c => decide (c ∈ splitChars)).filter fun w => decide (w ≠ [])

/-- The pull loop of the incremental/whole-input equivalence property: while
the input is not empty, call `Token` on it, collect the token and go on with
the remainder and the buffer handed back.  The loop has no other exit; with
the tokens comes the first error that a call returned, if any.  At most
`fuel` calls: `none` when they do not bring the remainder to the empty
string. -/
def pullTokens : Nat → GoString → GoString → Option (List GoString × Option Error)
  | 0, _, _ => none
  | fuel + 1, input, buf =>
    if input = [] then some ([], none)
    else
      match Token input buf with
      | none => none
      | some (tok, rest, reused, e) =>
        (pullTokens fuel rest reused).map fun r => (tok :: r.1, e.or r.2)

/-- The pull loop with a budget of `len(input) + 1` calls, which is enough
whenever every call that returns a non-empty remainder has consumed a byte. -/
def pullAll (input buf : GoString) : Option (List GoString × Option Error) :=
  pullTokens (input.length + 1) input buf

/-- A caller's loop that also stops at the first error: while the input is not
empty, call `Token` on it; on an error stop, with the tokens collected so
far, the error, and the remainder returned with it; otherwise collect the
token and go on with the remainder and the buffer handed back.  At most
`fuel` calls. -/
def pullUntilError : Nat → GoString → GoString →
    Option (List GoString × Option Error × GoString)
  | 0, _, _ => none
  | fuel + 1, input, buf =>
    if input = [] then some ([], none, [])
    else
      match Token input buf with
      | none => none
      | some (tok, rest, reused, none) =>
        (pullUntilError fuel rest reused).map fun r => (tok :: r.1, r.2)
      | some (_, rest, _, some e) => some ([], some e, rest)

/-- The bytes the scanner has read but not yet added to the word: the
backslash, in a double-quote escape. -/
def Mode.pending : Mode → GoString
  | .dblEsc => [escapeChar]
  | _ => []

/-- The bytes of the word under construction: none between words. -/
def Mode.carry : Mode → GoString → GoString
  | .skip, _ => []
  | .skipEsc, _ => []
  | _, acc => acc

/-- What the splitter needs of a decoded code point that starts with a byte
from 0x80 on: it is itself at least 0x80, and the bytes it spans are all at
least 0x80. -/
def HighRune (b : Nat) (t : GoString) : Prop :=
  128 ≤ (DecodeRuneInString (b :: t)).1 ∧ 1 ≤ (DecodeRuneInString (b :: t)).2 ∧
    (DecodeRuneInString (b :: t)).2 ≤ (b :: t).length ∧
    ∀ x ∈ (b :: t).take (DecodeRuneInString (b :: t)).2, 128 ≤ x

/-- The scan that a control point of `splitWord` stands for: the bytes from
the cursor on, with the writer and the span not yet flushed as word so far. -/
def State.spec : State → Tok
  | .raw input cur buf => scanTok .raw cur (buf ++ input.take (input.length - cur.length))
  | .escape input buf => scanTok .esc input buf
  | .single input buf => scanTok .sgl input buf
  | .double input cur buf => scanTok .dbl cur (buf ++ input.take (input.length - cur.length))

/-- In the loops the cursor is a suffix of the input. -/
def State.wf : State → Prop
  | .raw input cur _ => ∃ pre, input = pre ++ cur
  | .escape _ _ => True
  | .single _ _ => True
  | .double input cur _ => ∃ pre, input = pre ++ cur

/-- The number of bytes a control point has still to read. -/
def State.size : State → Nat
  | .raw _ cur _ => cur.length
  | .escape input _ => input.length
  | .single input _ => input.length
  | .double _ cur _ => cur.length

/-- One pass from `s` is in range and agrees with the scanner: it leads to a
control point with fewer bytes to read that stands for the same scan, or it
returns what the scan yields. -/
def StepOK (s : State) : Prop :=
  (∃ s', step s = some (.inl s') ∧ s'.wf ∧ s'.size < s.size ∧ s'.spec = s.spec) ∨
  (∃ r, step s = some (.inr r) ∧ (r.word, r.remainder, r.err) = s.spec.triple ∧
    (r.err = none → r.buf = r.word))

/-! ## Lemmas on the standard library functions -/

theorem le_or_left (a b : Nat) : a ≤ a ||| b :=
  Nat.le_of_testBit (fun i h => by simp [Nat.testBit_or, h])

theorem le_or_right (a b : Nat) : b ≤ a ||| b :=
  Nat.le_of_testBit (fun i h => by simp [Nat.testBit_or, h])

theorem and31 (b : Nat) : b &&& 0x1F = b % 32 := Nat.and_pow_two_sub_one_eq_mod b 5

theorem and15 (b : Nat) : b &&& 0x0F = b % 16 := Nat.and_pow_two_sub_one_eq_mod b 4

theorem and7 (b : Nat) : b &&& 0x07 = b % 8 := Nat.and_pow_two_sub_one_eq_mod b 3

theorem and63 (b : Nat) : b &&& 0x3F = b % 64 := Nat.and_pow_two_sub_one_eq_mod b 6

theorem decode_nil : DecodeRuneInString [] = (RuneError, 0) := by
  simp [DecodeRuneInString]

/-- A byte below 0x80 decodes to itself, with width one. -/
theorem decode_ascii (b : Nat) (t : GoString) (h : b < 128) :
    DecodeRuneInString (b :: t) = (b, 1) := by
  simp [DecodeRuneInString, first, h]

theorem first_high (b : Nat) (h : 128 ≤ b) :
    (first b = 0xF1 ∧ (b < 0xC2 ∨ 0xF5 ≤ b)) ∨ (first b = 0x02 ∧ 0xC2 ≤ b ∧ b < 0xE0) ∨
    (first b = 0x13 ∧ b = 0xE0) ∨ (first b = 0x03 ∧ 0xE1 ≤ b ∧ b < 0xF0 ∧ b ≠ 0xED) ∨
    (first b = 0x23 ∧ b = 0xED) ∨ (first b = 0x34 ∧ b = 0xF0) ∨
    (first b = 0x04 ∧ 0xF1 ≤ b ∧ b < 0xF4) ∨ (first b = 0x44 ∧ b = 0xF4) := by
  unfold first
  by_cases h1 : b < 0x80
  · omega
  by_cases h2 : b < 0xC2
  · simp [h1, h2]
  by_cases h3 : b < 0xE0
  · simp [h1, h2, h3]; omega
  by_cases h4 : b = 0xE0
  · simp [h4]
  by_cases h5 : b < 0xED
  · simp [h1, h2, h3, h4, h5]; omega
  by_cases h6 : b = 0xED
  · simp [h6]
  by_cases h7 : b < 0xF0
  · simp [h1, h2, h3, h4, h5, h6, h7]; omega
  by_cases h8 : b = 0xF0
  · simp [h8]
  by_cases h9 : b < 0xF4
  · simp [h1, h2, h3, h4, h5, h6, h7, h8, h9]; omega
  by_cases h10 : b = 0xF4
  · simp [h10]
  simp [h1, h2, h3, h4, h5, h6, h7, h8, h9, h10]; omega

theorem highRune_s1 (b : Nat) (t : GoString) (hx : first b = 0x02) (hr : 0xC2 ≤ b ∧ b < 0xE0) :
    HighRune b t := by
  unfold HighRune
  rcases t with _ | ⟨s1, _ | ⟨s2, _ | ⟨s3, t⟩⟩⟩
  all_goals simp [DecodeRuneInString, hx, acceptRanges, RuneError, and7,
    Nat.shiftRight_eq_div_pow]
  all_goals try split_ifs
  all_goals try simp [and31, and15, and7, and63, Nat.shiftLeft_eq]
  all_goals first
    | omega
    | (refine ⟨le_trans ?_ (le_or_left _ _), ?_⟩ <;> omega)

theorem highRune_s2 (b : Nat) (t : GoString) (hx : first b = 0x13) (hr : b = 0xE0) :
    HighRune b t := by
  unfold HighRune
  rcases t with _ | ⟨s1, _ | ⟨s2, _ | ⟨s3, t⟩⟩⟩
  all_goals simp [DecodeRuneInString, hx, acceptRanges, RuneError, and7,
    Nat.shiftRight_eq_div_pow]
  all_goals try split_ifs
  all_goals try simp [and31, and15, and7, and63, Nat.shiftLeft_eq]
  all_goals first
    | omega
    | (refine ⟨le_trans (le_trans ?_ (le_or_right _ _)) (le_or_left _ _), ?_⟩ <;> omega)

theorem highRune_s3 (b : Nat) (t : GoString) (hx : first b = 0x03) (hr : 0xE1 ≤ b ∧ b < 0xF0 ∧ b ≠ 0xED) :
    HighRune b t := by
  unfold HighRune
  rcases t with _ | ⟨s1, _ | ⟨s2, _ | ⟨s3, t⟩⟩⟩
  all_goals simp [DecodeRuneInString, hx, acceptRanges, RuneError, and7,
    Nat.shiftRight_eq_div_pow]
  all_goals try split_ifs
  all_goals try simp [and31, and15, and7, and63, Nat.shiftLeft_eq]
  all_goals first
    | omega
    | (refine ⟨le_trans (le_trans ?_ (le_or_left _ _)) (le_or_left _ _), ?_⟩ <;> omega)

theorem highRune_s4 (b : Nat) (t : GoString) (hx : first b = 0x23) (hr : b = 0xED) :
    HighRune b t := by
  unfold HighRune
  rcases t with _ | ⟨s1, _ | ⟨s2, _ | ⟨s3, t⟩⟩⟩
  all_goals simp [DecodeRuneInString, hx, acceptRanges, RuneError, and7,
    Nat.shiftRight_eq_div_pow]
  all_goals try split_ifs
  all_goals try simp [and31, and15, and7, and63, Nat.shiftLeft_eq]
  all_goals first
    | omega
    | (refine ⟨le_trans (le_trans ?_ (le_or_left _ _)) (le_or_left _ _), ?_⟩ <;> omega)

theorem highRune_s5 (b : Nat) (t : GoString) (hx : first b = 0x34) (hr : b = 0xF0) :
    HighRune b t := by
  unfold HighRune
  rcases t with _ | ⟨s1, _ | ⟨s2, _ | ⟨s3, t⟩⟩⟩
  all_goals simp [DecodeRuneInString, hx, acceptRanges, RuneError, and7,
    Nat.shiftRight_eq_div_pow]
  all_goals try split_ifs
  all_goals try simp [and31, and15, and7, and63, Nat.shiftLeft_eq]
  all_goals first
    | omega
    | (refine ⟨le_trans (le_trans (le_trans ?_ (le_or_right _ _)) (le_or_left _ _))
        (le_or_left _ _), ?_⟩ <;> omega)

theorem highRune_s6 (b : Nat) (t : GoString) (hx : first b = 0x04) (hr : 0xF1 ≤ b ∧ b < 0xF4) :
    HighRune b t := by
  unfold HighRune
  rcases t with _ | ⟨s1, _ | ⟨s2, _ | ⟨s3, t⟩⟩⟩
  all_goals simp [DecodeRuneInString, hx, acceptRanges, RuneError, and7,
    Nat.shiftRight_eq_div_pow]
  all_goals try split_ifs
  all_goals try simp [and31, and15, and7, and63, Nat.shiftLeft_eq]
  all_goals first
    | omega
    | (refine ⟨le_trans (le_trans (le_trans ?_ (le_or_left _ _)) (le_or_left _ _))
        (le_or_left _ _), ?_⟩ <;> omega)

theorem highRune_s7 (b : Nat) (t : GoString) (hx : first b = 0x44) (hr : b = 0xF4) :
    HighRune b t := by
  unfold HighRune
  rcases t with _ | ⟨s1, _ | ⟨s2, _ | ⟨s3, t⟩⟩⟩
  all_goals simp [DecodeRuneInString, hx, acceptRanges, RuneError, and7,
    Nat.shiftRight_eq_div_pow]
  all_goals try split_ifs
  all_goals try simp [and31, and15, and7, and63, Nat.shiftLeft_eq]
  all_goals first
    | omega
    | (refine ⟨le_trans (le_trans (le_trans ?_ (le_or_left _ _)) (le_or_left _ _))
        (le_or_left _ _), ?_⟩ <;> omega)

theorem highRune_xx (b : Nat) (t : GoString) (hx : first b = 0xF1) (hr : 128 ≤ b) :
    HighRune b t := by
  unfold HighRune
  simp [DecodeRuneInString, hx, RuneError]; omega

/-- A code point that starts with a byte from 0x80 on is at least 0x80, is
at least one byte wide, lies within the string, and spans only bytes from
0x80 on. -/
theorem decode_high (b : Nat) (t : GoString) (h : 128 ≤ b) : HighRune b t := by
  rcases first_high b h with h1 | h1 | h1 | h1 | h1 | h1 | h1 | h1
  · exact highRune_xx b t h1.1 h
  · exact highRune_s1 b t h1.1 h1.2
  · exact highRune_s2 b t h1.1 h1.2
  · exact highRune_s3 b t h1.1 h1.2
  · exact highRune_s4 b t h1.1 h1.2
  · exact highRune_s5 b t h1.1 h1.2
  · exact highRune_s6 b t h1.1 h1.2
  · exact highRune_s7 b t h1.1 h1.2


theorem containsRune_splitChars (c : Nat) :
    ContainsRune splitChars c = true ↔ c ∈ splitChars := by
  simp [ContainsRune, IndexRune, splitChars, IndexRuneFrom, decode_ascii]
  split_ifs <;> (simp_all; try omega)

theorem containsRune_doubleEscapeChars (c : Nat) :
    ContainsRune doubleEscapeChars c = true ↔ c ∈ doubleEscapeChars := by
  simp [ContainsRune, IndexRune, doubleEscapeChars, IndexRuneFrom, decode_ascii]
  split_ifs <;> (simp_all; try omega)

theorem slice_zero (s : GoString) (k : Nat) (h : k ≤ s.length) :
    slice s 0 (k : Int) = some (s.take k) := by
  simp [slice, h]

theorem sliceFrom_nat (s : GoString) (k : Nat) (h : k ≤ s.length) :
    sliceFrom s (k : Int) = some (s.drop k) := by
  simp [sliceFrom, slice, h]

theorem sliceTo_nat (s : GoString) (k : Nat) (h : k ≤ s.length) :
    sliceTo s (k : Int) = some (s.take k) := by
  simp [sliceTo, slice, h]

theorem indexRuneFrom_ascii (r : Nat) (hr : r < 128) :
    ∀ (fuel : Nat) (s : GoString) (i : Nat), s.length ≤ fuel →
      IndexRuneFrom fuel s r i = if r ∈ s then ((i + s.indexOf r : Nat) : Int) else -1 := by
  intro fuel
  induction fuel with
  | zero =>
    intro s i h
    have : s = [] := List.length_eq_zero.mp (by omega)
    simp [this, IndexRuneFrom]
  | succ n ih =>
    intro s i h
    rcases s with _ | ⟨b, t⟩
    · simp [IndexRuneFrom]
    · by_cases hb : b < 128
      · simp only [IndexRuneFrom, decode_ascii b t hb]
        by_cases hbr : b = r
        · simp [hbr]
        · have hrb : ¬ r = b := fun e => hbr e.symm
          have := ih t (i + 1) (by simpa using h)
          simp [hbr, hrb, this, List.indexOf_cons_ne _ hbr]
          split_ifs
          · omega
          · rfl
      · obtain ⟨h1, h2, h3, h4⟩ := decode_high b t (by omega)
        generalize hs : b :: t = s at *
        generalize hd : DecodeRuneInString s = d at *
        have hne : ¬ d.1 = r := by omega
        have hnm : r ∉ s.take d.2 := fun hm => by have := h4 r hm; omega
        have hlen : (s.drop d.2).length ≤ n := by
          simp only [List.length_drop]; omega
        have hs0 : ¬ s.length = 0 := by omega
        have hsplit := List.take_append_drop d.2 s
        have hmem : r ∈ s ↔ r ∈ s.drop d.2 := by
          have hma := @List.mem_append _ r (s.take d.2) (s.drop d.2)
          rw [hsplit] at hma
          rw [hma]
          exact ⟨fun h => h.resolve_left hnm, Or.inr⟩
        have hidx : s.indexOf r = d.2 + (s.drop d.2).indexOf r := by
          conv_lhs => rw [← hsplit]
          rw [List.indexOf_append_of_not_mem hnm, List.length_take]
          congr 1; omega
        rw [IndexRuneFrom, if_neg hs0, hd, if_neg hne, ih _ (i + d.2) hlen]
        by_cases hm : r ∈ s.drop d.2
        · rw [if_pos hm, if_pos (hmem.mpr hm), hidx]
          congr 1; omega
        · rw [if_neg hm, if_neg (fun h => hm (hmem.mp h))]

theorem indexRune_ascii (s : GoString) (r : Nat) (hr : r < 128) :
    IndexRune s r = if r ∈ s then ((s.indexOf r : Nat) : Int) else -1 := by
  have := indexRuneFrom_ascii r hr s.length s 0 (le_refl _)
  simpa [IndexRune] using this

/-- The two ways a code point is decoded at the head of `b :: t`: a byte below
0x80 is the code point, of width one; otherwise the code point is at least
0x80 and the bytes it spans after `b` are all at least 0x80. -/
theorem decode_view (b : Nat) (t : GoString) :
    ∃ c l, DecodeRuneInString (b :: t) = (c, l + 1) ∧ l ≤ t.length ∧
      (∀ x ∈ t.take l, 128 ≤ x) ∧ ((b < 128 ∧ c = b ∧ l = 0) ∨ (128 ≤ b ∧ 128 ≤ c)) := by
  by_cases hb : b < 128
  · exact ⟨b, 0, decode_ascii b t hb, by simp, by simp, Or.inl ⟨hb, rfl, rfl⟩⟩
  · obtain ⟨h1, h2, h3, h4⟩ := decode_high b t (by omega)
    refine ⟨(DecodeRuneInString (b :: t)).1, (DecodeRuneInString (b :: t)).2 - 1, ?_, ?_, ?_,
      Or.inr ⟨by omega, h1⟩⟩
    · rw [Nat.sub_add_cancel h2]
    · simp only [List.length_cons] at h3; omega
    · intro x hx
      apply h4
      obtain ⟨k, hk⟩ : ∃ k, (DecodeRuneInString (b :: t)).2 = k + 1 := ⟨_, (Nat.sub_add_cancel h2).symm⟩
      rw [hk] at hx ⊢
      simp only [Nat.add_sub_cancel] at hx
      simp [hx]

/-- A decoded code point is one of the special characters exactly when the
byte it starts with is. -/
theorem rune_class (b c l : Nat) (hc : (b < 128 ∧ c = b ∧ l = 0) ∨ (128 ≤ b ∧ 128 ≤ c)) :
    (c = singleChar ↔ b = singleChar) ∧ (c = doubleChar ↔ b = doubleChar) ∧
    (c = escapeChar ↔ b = escapeChar) ∧ (c = 10 ↔ b = 10) ∧
    (ContainsRune splitChars c = true ↔ b ∈ splitChars) ∧
    (ContainsRune doubleEscapeChars c = true ↔ b ∈ doubleEscapeChars) := by
  rw [containsRune_splitChars, containsRune_doubleEscapeChars]
  simp only [singleChar, doubleChar, escapeChar, splitChars, doubleEscapeChars,
    List.mem_cons, List.mem_singleton, List.not_mem_nil, or_false]
  omega

/-- The flush `input[0 : len(input)-len(cur)-l]` of the loops, taken after
the cursor `cur` has advanced by `k` bytes: the span before the cursor. -/
theorem slice_flush (pre cur : GoString) (k : Nat) (hk : k ≤ cur.length) :
    slice (pre ++ cur) 0
      (((pre ++ cur).length : Int) - ((cur.drop k).length : Int) - (k : Int)) = some pre := by
  have h : ((pre ++ cur).length : Int) - ((cur.drop k).length : Int) - (k : Int) =
      ((pre.length : Nat) : Int) := by
    simp only [List.length_append, List.length_drop]; omega
  rw [h, slice_zero _ _ (by simp)]
  simp

/-! ## The scanner on spans without special bytes -/

theorem scanTok_raw_plain (p s acc : GoString)
    (h : ∀ x ∈ p, x ≠ singleChar ∧ x ≠ doubleChar ∧ x ≠ escapeChar ∧ x ∉ splitChars) :
    scanTok .raw (p ++ s) acc = scanTok .raw s (acc ++ p) := by
  induction p generalizing acc with
  | nil => simp
  | cons x p ih =>
    have hx := h x (List.mem_cons_self _ _)
    have := ih (acc ++ [x]) (fun y hy => h y (List.mem_cons_of_mem _ hy))
    simp [scanTok, hx.1, hx.2.1, hx.2.2.1, hx.2.2.2, this]

theorem scanTok_dbl_plain (p s acc : GoString)
    (h : ∀ x ∈ p, x ≠ doubleChar ∧ x ≠ escapeChar) :
    scanTok .dbl (p ++ s) acc = scanTok .dbl s (acc ++ p) := by
  induction p generalizing acc with
  | nil => simp
  | cons x p ih =>
    have hx := h x (List.mem_cons_self _ _)
    have := ih (acc ++ [x]) (fun y hy => h y (List.mem_cons_of_mem _ hy))
    simp [scanTok, hx.1, hx.2, this]

theorem scanTok_sgl_eq (s acc : GoString) :
    scanTok .sgl s acc =
      if singleChar ∈ s then
        scanTok .raw (s.drop (s.indexOf singleChar + 1)) (acc ++ s.take (s.indexOf singleChar))
      else .fail .UnterminatedSingleQuoteError [] := by
  induction s generalizing acc with
  | nil => simp [scanTok]
  | cons x s ih =>
    by_cases hx : x = singleChar
    · simp [scanTok, hx]
    · have hx' : ¬ singleChar = x := fun e => hx e.symm
      simp [scanTok, hx, hx', ih, List.indexOf_cons_ne _ hx]

theorem high_raw_plain (x : Nat) (h : 128 ≤ x) :
    x ≠ singleChar ∧ x ≠ doubleChar ∧ x ≠ escapeChar ∧ x ∉ splitChars := by
  simp [singleChar, doubleChar, escapeChar, splitChars]; omega

theorem high_dbl_plain (x : Nat) (h : 128 ≤ x) : x ≠ doubleChar ∧ x ≠ escapeChar := by
  simp [doubleChar, escapeChar]; omega

theorem take_length_sub (pre cur : GoString) :
    (pre ++ cur).take ((pre ++ cur).length - cur.length) = pre := by
  simp

/-! ## `splitWord` agrees with the scanner -/

theorem spec_raw_self (input buf : GoString) :
    (State.raw input input buf).spec = scanTok .raw input buf := by
  simp [State.spec]

theorem spec_double_self (input buf : GoString) :
    (State.double input input buf).spec = scanTok .dbl input buf := by
  simp [State.spec]

theorem stepOK_single (input buf : GoString) : StepOK (.single input buf) := by
  unfold StepOK
  have hi := indexRune_ascii input singleChar (by decide)
  by_cases hm : singleChar ∈ input
  · left
    rw [if_pos hm] at hi
    have hk : input.indexOf singleChar < input.length := List.indexOf_lt_length.mpr hm
    refine ⟨.raw (input.drop (input.indexOf singleChar + 1))
      (input.drop (input.indexOf singleChar + 1))
      (buf ++ input.take (input.indexOf singleChar)), ?_, ⟨[], rfl⟩, ?_, ?_⟩
    · have h1 : ¬ ((input.indexOf singleChar : Nat) : Int) = -1 := by omega
      have h2 := slice_zero input (input.indexOf singleChar) (le_of_lt hk)
      have h3 := sliceFrom_nat input (input.indexOf singleChar + 1) hk
      simp only [step, hi, h1, if_false, h2]
      rw [show ((input.indexOf singleChar : Nat) : Int) + 1 =
        ((input.indexOf singleChar + 1 : Nat) : Int) by push_cast; rfl, h3]
      simp [byteWriter.WriteString]
    · simp only [State.size, List.length_drop]; omega
    · rw [spec_raw_self]
      simp only [State.spec]
      rw [scanTok_sgl_eq, if_pos hm]
  · right
    rw [if_neg hm] at hi
    refine ⟨⟨[], [], some .UnterminatedSingleQuoteError, buf⟩, ?_, ?_, ?_⟩
    · simp [step, hi]
    · simp only [State.spec]
      rw [scanTok_sgl_eq, if_neg hm]
      rfl
    · simp

theorem stepOK_escape (input buf : GoString) : StepOK (.escape input buf) := by
  unfold StepOK
  rcases input with _ | ⟨b, t⟩
  · right
    exact ⟨⟨[], [], some .UnterminatedEscapeError, buf⟩, by simp [step], by simp [State.spec, scanTok, Tok.triple], by simp⟩
  · left
    obtain ⟨c, l, hd, hl, hhigh, hc⟩ := decode_view b t
    have hplain : ∀ x ∈ t.take l, x ≠ singleChar ∧ x ≠ doubleChar ∧ x ≠ escapeChar ∧
        x ∉ splitChars := fun x hx => high_raw_plain x (hhigh x hx)
    have hsplit := scanTok_raw_plain (t.take l) (t.drop l)
    simp only [List.take_append_drop] at hsplit
    have h1 := sliceFrom_nat (b :: t) (l + 1) (by simp; omega)
    have h2 := sliceTo_nat (b :: t) (l + 1) (by simp; omega)
    have hc10 : c = 10 ↔ b = 10 := by omega
    by_cases hb : b = 10
    · have hl0 : l = 0 := by omega
      subst hl0
      refine ⟨.raw t t buf, ?_, ⟨[], rfl⟩, by simp [State.size], ?_⟩
      · simp only [step, hd, h1]
        simp [hc10.mpr hb]
      · rw [spec_raw_self]; simp [State.spec, scanTok, hb]
    · refine ⟨.raw (t.drop l) (t.drop l) (buf ++ b :: t.take l), ?_, ⟨[], rfl⟩, ?_, ?_⟩
      · simp only [step, hd, h1, h2]
        simp [mt hc10.mp hb, byteWriter.WriteString]
      · simp only [State.size, List.length_drop, List.length_cons]; omega
      · rw [spec_raw_self]
        simp only [State.spec, scanTok, if_neg hb]
        rw [hsplit (buf ++ [b]) hplain]
        simp

theorem spec_raw_append (pre cur buf : GoString) :
    (State.raw (pre ++ cur) cur buf).spec = scanTok .raw cur (buf ++ pre) := by
  simp [State.spec]

theorem spec_double_append (pre cur buf : GoString) :
    (State.double (pre ++ cur) cur buf).spec = scanTok .dbl cur (buf ++ pre) := by
  simp [State.spec]

theorem stepOK_raw (pre cur buf : GoString) : StepOK (.raw (pre ++ cur) cur buf) := by
  unfold StepOK
  rw [spec_raw_append]
  rcases cur with _ | ⟨b, t⟩
  · right
    by_cases hp : pre = []
    · exact ⟨⟨buf, [], none, buf⟩, by simp [step, hp, byteWriter.String],
        by simp [scanTok, Tok.triple, hp], by simp⟩
    · have : 0 < pre.length := List.length_pos.mpr hp
      exact ⟨⟨buf ++ pre, [], none, buf ++ pre⟩,
        by simp [step, this, byteWriter.String, byteWriter.WriteString],
        by simp [scanTok, Tok.triple], by simp⟩
  · obtain ⟨c, l, hd, hl, hhigh, hc⟩ := decode_view b t
    obtain ⟨hsc, hdc, hec, -, hsp, -⟩ := rune_class b c l hc
    have h1 := sliceFrom_nat (b :: t) (l + 1) (by simp; omega)
    have h2 := slice_flush pre (b :: t) (l + 1) (by simp; omega)
    have hpos : (b :: t).length > 0 := by simp
    have hl0 : b < 128 → l = 0 := by omega
    by_cases hb1 : b = singleChar
    · left
      have := hl0 (by simp [hb1, singleChar]); subst this
      refine ⟨.single t (buf ++ pre), ?_, trivial, by simp [State.size], ?_⟩
      · simp only [step, hpos, if_true, hd, h1, if_pos (hsc.mpr hb1), Option.some_bind, h2]
        simp [byteWriter.WriteString]
      · simp [State.spec, scanTok, hb1]
    have hn1 : ¬ c = singleChar := mt hsc.mp hb1
    by_cases hb2 : b = doubleChar
    · left
      have := hl0 (by simp [hb2, doubleChar]); subst this
      refine ⟨.double t t (buf ++ pre), ?_, ⟨[], rfl⟩, by simp [State.size], ?_⟩
      · simp only [step, hpos, if_true, hd, h1, if_neg hn1, if_pos (hdc.mpr hb2),
          Option.some_bind, h2]
        simp [byteWriter.WriteString]
      · rw [spec_double_self]; simp only [scanTok, if_neg hb1, if_pos hb2]
    have hn2 : ¬ c = doubleChar := mt hdc.mp hb2
    by_cases hb3 : b = escapeChar
    · left
      have := hl0 (by simp [hb3, escapeChar]); subst this
      refine ⟨.escape t (buf ++ pre), ?_, trivial, by simp [State.size], ?_⟩
      · simp only [step, hpos, if_true, hd, h1, if_neg hn1, if_neg hn2, if_pos (hec.mpr hb3),
          Option.some_bind, h2]
        simp [byteWriter.WriteString]
      · simp only [State.spec, scanTok, if_neg hb1, if_neg hb2, if_pos hb3]
    have hn3 : ¬ c = escapeChar := mt hec.mp hb3
    by_cases hb4 : b ∈ splitChars
    · right
      have := hl0 (by
        simp only [splitChars, List.mem_cons, List.mem_singleton, List.not_mem_nil,
          or_false] at hb4
        omega)
      subst this
      refine ⟨⟨buf ++ pre, t, none, buf ++ pre⟩, ?_, ?_, by simp⟩
      · simp only [step, hpos, if_true, hd, h1, if_neg hn1, if_neg hn2, if_neg hn3,
          if_pos (hsp.mpr hb4), Option.some_bind, h2]
        simp [byteWriter.WriteString, byteWriter.String]
      · simp only [scanTok, if_neg hb1, if_neg hb2, if_neg hb3, if_pos hb4, Tok.triple]
    have hn4 : ¬ ContainsRune splitChars c = true := mt hsp.mp hb4
    left
    have happ : pre ++ b :: t = (pre ++ b :: t.take l) ++ t.drop l := by simp
    have hplain : ∀ x ∈ b :: t.take l, x ≠ singleChar ∧ x ≠ doubleChar ∧ x ≠ escapeChar ∧
        x ∉ splitChars := by
      intro x hx
      rcases List.mem_cons.mp hx with rfl | hx
      · exact ⟨hb1, hb2, hb3, hb4⟩
      · exact high_raw_plain x (hhigh x hx)
    refine ⟨.raw (pre ++ b :: t) (t.drop l) buf, ?_, ⟨pre ++ b :: t.take l, happ⟩, ?_, ?_⟩
    · simp only [step, hpos, if_true, hd, h1, if_neg hn1, if_neg hn2, if_neg hn3,
        if_neg hn4, Option.some_bind]
      simp
    · simp only [State.size, List.length_drop, List.length_cons]; omega
    · rw [happ, spec_raw_append]
      have := scanTok_raw_plain (b :: t.take l) (t.drop l) (buf ++ pre) hplain
      simp only [List.cons_append, List.take_append_drop] at this
      rw [this]
      simp

theorem slice_flush_two (pre cur : GoString) (e k : Nat) (hk : k ≤ cur.length) :
    slice (pre ++ e :: cur) 0
      (((pre ++ e :: cur).length : Int) - ((cur.drop k).length : Int) - ((1 : Nat) : Int) -
        (k : Int)) = some pre := by
  have h : ((pre ++ e :: cur).length : Int) - ((cur.drop k).length : Int) - ((1 : Nat) : Int) -
      (k : Int) = ((pre.length : Nat) : Int) := by
    simp only [List.length_append, List.length_drop, List.length_cons]; omega
  rw [h, slice_zero _ _ (by simp)]
  simp

theorem stepOK_double_escape (pre t buf : GoString) :
    ∃ s', step (.double (pre ++ escapeChar :: t) (escapeChar :: t) buf) = some (.inl s') ∧
      s'.wf ∧ s'.size < (escapeChar :: t).length ∧
      s'.spec = scanTok .dblEsc t (buf ++ pre) := by
  have hd := decode_ascii escapeChar t (by decide)
  have h1 : sliceFrom (escapeChar :: t) ((1 : Nat) : Int) = some t :=
    sliceFrom_nat (escapeChar :: t) 1 (by simp)
  have hpos : (escapeChar :: t).length > 0 := by simp
  have hn1 : ¬ escapeChar = doubleChar := by decide
  rcases t with _ | ⟨b, t⟩
  · have h3 : sliceFrom ([] : GoString) ((0 : Nat) : Int) = some [] := sliceFrom_nat [] 0 (by simp)
    have h4 : ¬ ContainsRune doubleEscapeChars RuneError = true := by
      rw [containsRune_doubleEscapeChars]; decide
    refine ⟨.double (pre ++ [escapeChar]) [] buf, ?_, ⟨pre ++ [escapeChar], by simp⟩,
      by simp [State.size], ?_⟩
    · simp only [step, hpos, if_true, hd, h1, if_neg hn1, Option.some_bind, decode_nil, h3,
        if_neg h4]
    · simp [State.spec, scanTok]
  · obtain ⟨c, l, hd2, hl, hhigh, hc⟩ := decode_view b t
    obtain ⟨-, -, -, h10, -, hde⟩ := rune_class b c l hc
    have h3 : sliceFrom (b :: t) ((l + 1 : Nat) : Int) = some (t.drop l) :=
      sliceFrom_nat (b :: t) (l + 1) (by simp; omega)
    have h2 : slice (pre ++ escapeChar :: b :: t) 0
        (((pre ++ escapeChar :: b :: t).length : Int) - ((t.drop l).length : Int) -
          ((1 : Nat) : Int) - ((l + 1 : Nat) : Int)) = some pre :=
      slice_flush_two pre (b :: t) escapeChar (l + 1) (by simp; omega)
    by_cases hb : b ∈ doubleEscapeChars
    · have hl0 : l = 0 := by
        simp only [doubleEscapeChars, List.mem_cons, List.mem_singleton, List.not_mem_nil,
          or_false] at hb
        omega
      have hcb : c = b := by
        simp only [doubleEscapeChars, List.mem_cons, List.mem_singleton, List.not_mem_nil,
          or_false] at hb
        omega
      subst hl0
      by_cases hb10 : b = 10
      · refine ⟨.double t t (buf ++ pre), ?_, ⟨[], rfl⟩,
          by simp only [State.size, List.length_cons]; omega, ?_⟩
        · simp only [step, hpos, if_true, hd, h1, if_neg hn1, Option.some_bind, hd2, h3,
            if_pos (hde.mpr hb), h2, if_pos (h10.mpr hb10)]
          simp [byteWriter.WriteString]
        · rw [spec_double_self]; simp only [scanTok, if_pos hb, if_pos hb10]
      · have henc : EncodeRune c = [b] := by
          simp only [doubleEscapeChars, List.mem_cons, List.mem_singleton, List.not_mem_nil,
            or_false] at hb
          have : b ≤ 0x7F := by omega
          rw [hcb]
          simp [EncodeRune, this]
        refine ⟨.double t t (buf ++ pre ++ [b]), ?_, ⟨[], rfl⟩,
          by simp only [State.size, List.length_cons]; omega, ?_⟩
        · simp only [step, hpos, if_true, hd, h1, if_neg hn1, Option.some_bind, hd2, h3,
            if_pos (hde.mpr hb), h2, if_neg (mt h10.mp hb10)]
          simp [byteWriter.WriteString, byteWriter.WriteRune, henc]
        · rw [spec_double_self]; simp only [scanTok, if_pos hb, if_neg hb10]
    · have happ : pre ++ escapeChar :: b :: t =
          (pre ++ escapeChar :: b :: t.take l) ++ t.drop l := by simp
      have hplain : ∀ x ∈ t.take l, x ≠ doubleChar ∧ x ≠ escapeChar :=
        fun x hx => high_dbl_plain x (hhigh x hx)
      refine ⟨.double (pre ++ escapeChar :: b :: t) (t.drop l) buf, ?_,
        ⟨pre ++ escapeChar :: b :: t.take l, happ⟩, ?_, ?_⟩
      · simp only [step, hpos, if_true, hd, h1, if_neg hn1, Option.some_bind, hd2, h3,
          if_neg (mt hde.mp hb)]
      · simp only [State.size, List.length_drop, List.length_cons]; omega
      · rw [happ, spec_double_append]
        simp only [scanTok, if_neg hb]
        have := scanTok_dbl_plain (t.take l) (t.drop l) (buf ++ pre ++ [escapeChar, b]) hplain
        simp only [List.take_append_drop] at this
        rw [this]
        simp

theorem stepOK_double (pre cur buf : GoString) : StepOK (.double (pre ++ cur) cur buf) := by
  unfold StepOK
  rw [spec_double_append]
  rcases cur with _ | ⟨b, t⟩
  · right
    exact ⟨⟨[], [], some .UnterminatedDoubleQuoteError, buf⟩, by simp [step],
      by simp [scanTok, Tok.triple], by simp⟩
  left
  obtain ⟨c, l, hd, hl, hhigh, hc⟩ := decode_view b t
  obtain ⟨-, hdc, hec, -, -, -⟩ := rune_class b c l hc
  have h1 := sliceFrom_nat (b :: t) (l + 1) (by simp; omega)
  have h2 := slice_flush pre (b :: t) (l + 1) (by simp; omega)
  have hpos : (b :: t).length > 0 := by simp
  have hl0 : b < 128 → l = 0 := by omega
  by_cases hb1 : b = doubleChar
  · have := hl0 (by simp [hb1, doubleChar]); subst this
    refine ⟨.raw t t (buf ++ pre), ?_, ⟨[], rfl⟩, by simp [State.size], ?_⟩
    · simp only [step, hpos, if_true, hd, h1, if_pos (hdc.mpr hb1), Option.some_bind, h2]
      simp [byteWriter.WriteString]
    · rw [spec_raw_self]; simp only [scanTok, if_pos hb1]
  have hn1 : ¬ c = doubleChar := mt hdc.mp hb1
  by_cases hb2 : b = escapeChar
  · subst hb2
    obtain ⟨s', e1, e2, e3, e4⟩ := stepOK_double_escape pre t buf
    refine ⟨s', e1, e2, e3, ?_⟩
    rw [e4]; simp only [scanTok, if_neg hb1, if_true]
  have hn2 : ¬ c = escapeChar := mt hec.mp hb2
  have happ : pre ++ b :: t = (pre ++ b :: t.take l) ++ t.drop l := by simp
  have hplain : ∀ x ∈ b :: t.take l, x ≠ doubleChar ∧ x ≠ escapeChar := by
    intro x hx
    rcases List.mem_cons.mp hx with rfl | hx
    · exact ⟨hb1, hb2⟩
    · exact high_dbl_plain x (hhigh x hx)
  refine ⟨.double (pre ++ b :: t) (t.drop l) buf, ?_, ⟨pre ++ b :: t.take l, happ⟩, ?_, ?_⟩
  · simp only [step, hpos, if_true, hd, h1, if_neg hn1, if_neg hn2, Option.some_bind]
    simp
  · simp only [State.size, List.length_drop, List.length_cons]; omega
  · rw [happ, spec_double_append]
    have := scanTok_dbl_plain (b :: t.take l) (t.drop l) (buf ++ pre) hplain
    simp only [List.cons_append, List.take_append_drop] at this
    rw [this]
    simp

theorem stepOK_of_wf (s : State) (h : s.wf) : StepOK s := by
  cases s with
  | raw input cur buf => obtain ⟨pre, rfl⟩ := h; exact stepOK_raw pre cur buf
  | escape input buf => exact stepOK_escape input buf
  | single input buf => exact stepOK_single input buf
  | double input cur buf => obtain ⟨pre, rfl⟩ := h; exact stepOK_double pre cur buf

/-- From every control point `splitWord` returns within as many passes as it
has bytes to read, plus one, and returns what the scanner yields. -/
theorem run_spec (fuel : Nat) : ∀ s : State, s.wf → s.size < fuel →
    ∃ r, run fuel s = some r ∧ (r.word, r.remainder, r.err) = s.spec.triple ∧
      (r.err = none → r.buf = r.word) := by
  induction fuel with
  | zero => intro s _ h; omega
  | succ n ih =>
    intro s hwf hsize
    rcases stepOK_of_wf s hwf with ⟨s', h1, h2, h3, h4⟩ | ⟨r, h1, h2, h3⟩
    · obtain ⟨r, e1, e2, e3⟩ := ih s' h2 (by omega)
      exact ⟨r, by simp only [run, h1, e1], by rw [e2, h4], e3⟩
    · exact ⟨r, by simp only [run, h1], h2, h3⟩

/-- The function `splitWord` returns, whatever the writer holds on entry, the
word, remainder and error that the scanner yields in mode `raw`; on success
the writer holds the word. -/
theorem splitWord_spec (input buf : GoString) :
    ∃ r, splitWord input buf = some r ∧
      (r.word, r.remainder, r.err) = (scanTok .raw input []).triple ∧
      (r.err = none → r.buf = r.word) := by
  have := run_spec (input.length + 1) (.raw input input (byteWriter.Reset buf)) ⟨[], rfl⟩
    (by simp [State.size])
  rw [spec_raw_self] at this
  exact this

/-! ## The scanner: one token and all tokens -/

/-- Scanning all words is scanning one token and then all words of the
remainder. -/
theorem scanAll_eq_thenAll (m : Mode) (cs acc : GoString) :
    scanAll m cs acc = (scanTok m cs acc).thenAll := by
  induction cs generalizing m acc with
  | nil => cases m <;> simp [scanAll, scanTok, Tok.thenAll, consWord]
  | cons c cs ih =>
    cases m <;> simp only [scanAll, scanTok] <;> split_ifs <;>
      first | exact ih _ _ | simp [Tok.thenAll]

/-- The remainder after a word is a suffix of the input, a proper one unless
the input is empty. -/
theorem scanTok_word_suffix (m : Mode) (cs acc w rem : GoString)
    (h : scanTok m cs acc = .word w rem) :
    rem <:+ cs ∧ (cs ≠ [] → rem.length < cs.length) := by
  induction cs generalizing m acc with
  | nil => cases m <;> simp_all [scanTok]
  | cons c cs ih =>
    have key : ∀ m' acc', scanTok m' cs acc' = .word w rem →
        rem <:+ c :: cs ∧ (c :: cs ≠ [] → rem.length < (c :: cs).length) := by
      intro m' acc' h'
      obtain ⟨h1, -⟩ := ih m' acc' h'
      refine ⟨h1.trans (List.suffix_cons c cs), fun _ => ?_⟩
      have := h1.length_le
      simp only [List.length_cons]; omega
    cases m <;> simp only [scanTok] at h <;> split_ifs at h <;>
      first
        | exact key _ _ h
        | (simp only [Tok.word.injEq] at h
           obtain ⟨-, rfl⟩ := h
           exact ⟨List.suffix_cons _ _, fun _ => by simp⟩)

/-- Inside a word the scanner never reports that nothing is left. -/
theorem scanTok_ne_eof (m : Mode) (cs acc : GoString) (hm : m ≠ .skip ∧ m ≠ .skipEsc) :
    scanTok m cs acc ≠ .eof := by
  induction cs generalizing m acc with
  | nil => cases m <;> simp_all [scanTok]
  | cons c cs ih =>
    cases m <;> simp only [scanTok] <;> first | (exact absurd rfl hm.1) | (exact absurd rfl hm.2) | skip
    all_goals split_ifs
    all_goals first | (apply ih; simp) | simp

theorem scanTok_skip_word (b : Nat) (t a : GoString) (h1 : b ∉ splitChars)
    (h2 : b ≠ escapeChar) : scanTok .skip (b :: t) a = scanTok .raw (b :: t) [] := by
  simp only [scanTok, if_neg h1, if_neg h2]
  split_ifs <;> simp

theorem scanTok_skip_escape (b : Nat) (t a : GoString) (h : b ≠ 0x0A) :
    scanTok .skip (escapeChar :: b :: t) a = scanTok .raw (escapeChar :: b :: t) [] := by
  have h1 : escapeChar ∉ splitChars := by decide
  have h2 : ¬ escapeChar = singleChar := by decide
  have h3 : ¬ escapeChar = doubleChar := by decide
  simp [scanTok, h1, h2, h3, h]

/-! ## `Token` and `Split` agree with the scanner -/

theorem tokenWord_spec (input buf : GoString) :
    ∃ reused, tokenWord input buf = some ((scanTok .raw input []).triple.1,
      (scanTok .raw input []).triple.2.1, reused, (scanTok .raw input []).triple.2.2) := by
  obtain ⟨r, h1, h2, -⟩ := splitWord_spec input buf
  refine ⟨r.buf, ?_⟩
  rw [← h2]
  simp [tokenWord, h1, byteWriter.Bytes]

theorem TokenLoop_spec (fuel : Nat) : ∀ input buf : GoString, input.length < fuel →
    ∃ reused, TokenLoop fuel input buf = some ((scanTok .skip input []).triple.1,
      (scanTok .skip input []).triple.2.1, reused, (scanTok .skip input []).triple.2.2) ∧
      (scanTok .skip input [] = .eof → reused = buf) := by
  induction fuel with
  | zero => intro input _ h; omega
  | succ n ih =>
    intro input buf hlen
    rcases input with _ | ⟨b, t⟩
    · exact ⟨buf, by simp [TokenLoop, scanTok, Tok.triple], fun _ => rfl⟩
    obtain ⟨c, l, hd, hl, hhigh, hc⟩ := decode_view b t
    obtain ⟨-, -, hec, -, hsp, -⟩ := rune_class b c l hc
    have hne : b :: t ≠ [] := by simp
    have hl0 : b < 128 → l = 0 := by omega
    have h1 : sliceFrom (b :: t) ((l + 1 : Nat) : Int) = some (t.drop l) :=
      sliceFrom_nat (b :: t) (l + 1) (by simp; omega)
    have hword : scanTok .skip (b :: t) [] = scanTok .raw (b :: t) [] →
        ∃ reused, tokenWord (b :: t) buf = some ((scanTok .skip (b :: t) []).triple.1,
          (scanTok .skip (b :: t) []).triple.2.1, reused,
          (scanTok .skip (b :: t) []).triple.2.2) ∧
          (scanTok .skip (b :: t) [] = .eof → reused = buf) := by
      intro he
      obtain ⟨reused, hr⟩ := tokenWord_spec (b :: t) buf
      refine ⟨reused, by rw [he]; exact hr, fun h => ?_⟩
      rw [he] at h
      exact absurd h (scanTok_ne_eof .raw (b :: t) [] (by simp))
    by_cases hb1 : b ∈ splitChars
    · have := hl0 (by
        simp only [splitChars, List.mem_cons, List.mem_singleton, List.not_mem_nil,
          or_false] at hb1
        omega)
      subst this
      obtain ⟨reused, e1, e2⟩ := ih t buf (by simpa using hlen)
      refine ⟨reused, ?_, ?_⟩
      · simp only [TokenLoop, if_pos hne, hd, if_pos (hsp.mpr hb1), h1, Option.some_bind,
          List.drop_zero, e1, scanTok, if_pos hb1]
      · simp only [scanTok, if_pos hb1]; exact e2
    have hn1 : ¬ ContainsRune splitChars c = true := mt hsp.mp hb1
    by_cases hb2 : b = escapeChar
    · have := hl0 (by simp [hb2, escapeChar]); subst this
      subst hb2
      have h1' : sliceFrom (escapeChar :: t) ((0 + 1 : Nat) : Int) = some t := h1
      have hn0 : ¬ c = escapeChar → False := fun h => h (hec.mpr rfl)
      rcases t with _ | ⟨b1, t1⟩
      · have hsk0 : scanTok .skip [escapeChar] [] =
            .fail .UnterminatedEscapeError [escapeChar] := by
          simp only [scanTok, if_neg hb1, if_true]
        refine ⟨buf, ?_, by rw [hsk0]; simp⟩
        simp only [TokenLoop, if_pos hne, hd, if_neg hn1, if_pos (hec.mpr rfl), h1',
          Option.some_bind, List.length_nil, if_true, hsk0, Tok.triple]
      obtain ⟨c1, l1, hd1, hl1, hhigh1, hc1⟩ := decode_view b1 t1
      obtain ⟨-, -, -, h10, -, -⟩ := rune_class b1 c1 l1 hc1
      have h2 : sliceFrom (b1 :: t1) ((l1 + 1 : Nat) : Int) = some (t1.drop l1) :=
        sliceFrom_nat (b1 :: t1) (l1 + 1) (by simp; omega)
      have hlen1 : ¬ (b1 :: t1).length = 0 := by simp
      by_cases hb10 : b1 = 0x0A
      · have hl10 : l1 = 0 := by omega
        subst hl10
        obtain ⟨reused, e1, e2⟩ := ih t1 buf (by simp at hlen; omega)
        have hsk : scanTok .skip (escapeChar :: b1 :: t1) [] = scanTok .skip t1 [] := by
          have : escapeChar ∉ splitChars := by decide
          simp [scanTok, this, hb10]
        refine ⟨reused, ?_, by rw [hsk]; exact e2⟩
        simp only [TokenLoop, if_pos hne, hd, if_neg hn1, if_pos (hec.mpr rfl), h1',
          Option.some_bind, if_neg hlen1, hd1, if_pos (h10.mpr hb10), h2, List.drop_zero, e1,
          hsk]
      · obtain ⟨reused, e1, e2⟩ := hword (scanTok_skip_escape b1 t1 [] hb10)
        refine ⟨reused, ?_, e2⟩
        simp only [TokenLoop, if_pos hne, hd, if_neg hn1, if_pos (hec.mpr rfl), h1',
          Option.some_bind, if_neg hlen1, hd1, if_neg (mt h10.mp hb10), e1]
    have hn2 : ¬ c = escapeChar := mt hec.mp hb2
    obtain ⟨reused, e1, e2⟩ := hword (scanTok_skip_word b t [] hb1 hb2)
    refine ⟨reused, ?_, e2⟩
    simp only [TokenLoop, if_pos hne, hd, if_neg hn1, if_neg hn2, e1]

/-- The function `Token` returns a result on every input: the token,
remainder and error that the scanner yields from between words; the buffer is
handed back untouched when nothing is left. -/
theorem Token_eq_scanTok (input buf : GoString) :
    ∃ reused, Token input buf = some ((scanTok .skip input []).triple.1,
      (scanTok .skip input []).triple.2.1, reused, (scanTok .skip input []).triple.2.2) ∧
      (scanTok .skip input [] = .eof → reused = buf) :=
  TokenLoop_spec (input.length + 1) input buf (by omega)

theorem splitWord_step (input buf : GoString) (fuel : Nat) (words : List GoString)
    (rest : Nat → GoString → List GoString → byteWriter →
      Option (List GoString × Option Error))
    (hrest : ∀ inp ws b, inp.length < input.length →
      rest fuel inp ws b = some (ws ++ (scanAll .skip inp []).1, (scanAll .skip inp []).2))
    (hne : input ≠ []) :
    ((splitWord input buf).bind fun r =>
      if r.err ≠ none then some (words, r.err)
      else rest fuel r.remainder (words ++ [r.word]) r.buf) =
    some (words ++ (scanAll .raw input []).1, (scanAll .raw input []).2) := by
  obtain ⟨r, h1, h2, -⟩ := splitWord_spec input buf
  rw [h1, Option.some_bind, scanAll_eq_thenAll]
  cases hk : scanTok .raw input [] with
  | word w rem =>
    rw [hk] at h2
    simp only [Tok.triple, Prod.mk.injEq] at h2
    obtain ⟨e1, e2, e3⟩ := h2
    have hlt := (scanTok_word_suffix .raw input [] w rem hk).2 hne
    rw [if_neg (by simp [e3]), e1, e2, hrest rem _ _ hlt]
    simp [Tok.thenAll, consWord]
  | fail e rem =>
    rw [hk] at h2
    simp only [Tok.triple, Prod.mk.injEq] at h2
    obtain ⟨e1, e2, e3⟩ := h2
    rw [if_pos (by simp [e3]), e3]
    simp [Tok.thenAll]
  | eof => exact absurd hk (scanTok_ne_eof .raw input [] (by simp))

theorem SplitLoop_spec (fuel : Nat) : ∀ (input : GoString) (words : List GoString)
    (buf : byteWriter), input.length < fuel →
    SplitLoop fuel input words buf =
      some (words ++ (scanAll .skip input []).1, (scanAll .skip input []).2) := by
  induction fuel with
  | zero => intro input _ _ h; omega
  | succ n ih =>
    intro input words buf hlen
    rcases input with _ | ⟨b, t⟩
    · simp [SplitLoop, scanAll]
    obtain ⟨c, l, hd, hl, hhigh, hc⟩ := decode_view b t
    obtain ⟨-, -, hec, -, hsp, -⟩ := rune_class b c l hc
    have hpos : (b :: t).length > 0 := by simp
    have hl0 : b < 128 → l = 0 := by omega
    have h1 : sliceFrom (b :: t) ((l + 1 : Nat) : Int) = some (t.drop l) :=
      sliceFrom_nat (b :: t) (l + 1) (by simp; omega)
    have hword := splitWord_step (b :: t) buf n words SplitLoop
      (fun inp ws b' h => ih inp ws b' (by simp only [List.length_cons] at h hlen; omega))
      (by simp)
    by_cases hb1 : b ∈ splitChars
    · have := hl0 (by
        simp only [splitChars, List.mem_cons, List.mem_singleton, List.not_mem_nil,
          or_false] at hb1
        omega)
      subst this
      simp only [SplitLoop, if_pos hpos, hd, if_pos (hsp.mpr hb1), h1, Option.some_bind,
        List.drop_zero, scanAll, if_pos hb1]
      exact ih t words buf (by simpa using hlen)
    have hn1 : ¬ ContainsRune splitChars c = true := mt hsp.mp hb1
    by_cases hb2 : b = escapeChar
    · have := hl0 (by simp [hb2, escapeChar]); subst this
      subst hb2
      have h1' : sliceFrom (escapeChar :: t) ((0 + 1 : Nat) : Int) = some t := h1
      rcases t with _ | ⟨b1, t1⟩
      · simp only [SplitLoop, if_pos hpos, hd, if_neg hn1, if_pos (hec.mpr rfl), h1',
          Option.some_bind, List.length_nil, if_true, scanAll, if_neg hb1]
        simp
      obtain ⟨c1, l1, hd1, hl1, hhigh1, hc1⟩ := decode_view b1 t1
      obtain ⟨-, -, -, h10, -, -⟩ := rune_class b1 c1 l1 hc1
      have h2 : sliceFrom (b1 :: t1) ((l1 + 1 : Nat) : Int) = some (t1.drop l1) :=
        sliceFrom_nat (b1 :: t1) (l1 + 1) (by simp; omega)
      have hlen1 : ¬ (b1 :: t1).length = 0 := by simp
      by_cases hb10 : b1 = 0x0A
      · have hl10 : l1 = 0 := by omega
        subst hl10
        have hsk : scanAll .skip (escapeChar :: b1 :: t1) [] = scanAll .skip t1 [] := by
          simp [scanAll, hb1, hb10]
        simp only [SplitLoop, if_pos hpos, hd, if_neg hn1, if_pos (hec.mpr rfl), h1',
          Option.some_bind, if_neg hlen1, hd1, if_pos (h10.mpr hb10), h2, List.drop_zero, hsk]
        exact ih t1 words buf (by simp at hlen; omega)
      · have hsk : scanAll .skip (escapeChar :: b1 :: t1) [] =
            scanAll .raw (escapeChar :: b1 :: t1) [] := by
          rw [scanAll_eq_thenAll, scanAll_eq_thenAll, scanTok_skip_escape b1 t1 [] hb10]
        simp only [SplitLoop, if_pos hpos, hd, if_neg hn1, if_pos (hec.mpr rfl), h1',
          Option.some_bind, if_neg hlen1, hd1, if_neg (mt h10.mp hb10), hsk]
        exact hword
    have hn2 : ¬ c = escapeChar := mt hec.mp hb2
    have hsk : scanAll .skip (b :: t) [] = scanAll .raw (b :: t) [] := by
      rw [scanAll_eq_thenAll, scanAll_eq_thenAll, scanTok_skip_word b t [] hb1 hb2]
    simp only [SplitLoop, if_pos hpos, hd, if_neg hn1, if_neg hn2, hsk]
    exact hword

/-- The function `Split` returns a result on every input: the words and the
error that the scanner yields from between words. -/
theorem Split_eq_scanAll (input : GoString) :
    Split input = some (scanAll .skip input []) := by
  have := SplitLoop_spec (input.length + 1) input [] [] (by omega)
  simpa [Split] using this

/-! ## Scanning a concatenation -/

theorem finish_cons (w : GoString) (p : Progress) (q : GoString) :
    (p.cons w).finish q = consWord w (p.finish q) := by
  simp [Progress.finish, Progress.cons, consWord]

/-- Scanning `p ++ q` is scanning `p` and continuing over `q` from where the
scanner stands then. -/
theorem scanAll_append (m : Mode) (p q acc : GoString) :
    scanAll m (p ++ q) acc = (scanEnd m p acc).finish q := by
  induction p generalizing m acc with
  | nil => cases m <;> simp [scanEnd, Progress.finish]
  | cons c p ih =>
    cases m <;> simp only [List.cons_append, scanAll, scanEnd] <;> split_ifs <;>
      first | exact ih _ _ | (rw [finish_cons]; exact congrArg _ (ih _ _))

/-- Between words there is no word under construction. -/
theorem scanAll_skip_acc (q acc : GoString) : scanAll .skip q acc = scanAll .skip q [] := by
  cases q <;> simp [scanAll]

theorem scanAll_eq_finish (m : Mode) (p acc : GoString) :
    scanAll m p acc = (scanEnd m p acc).finish [] := by
  have := scanAll_append m p [] acc
  simpa using this

/-- A scan succeeds exactly when it ends between words or in a word outside
quotes; in the second case the word under construction is the last word. -/
theorem finish_nil_ok (p : Progress) (ws : List GoString) (h : p.finish [] = (ws, none)) :
    (p.mode = .skip ∧ ws = p.words) ∨ (p.mode = .raw ∧ ws = p.words ++ [p.acc]) := by
  obtain ⟨words, mode, acc⟩ := p
  cases mode <;> simp_all [Progress.finish, scanAll]

/-- If `Split` succeeds on `p`, then on `p ++ q` it continues over `q` either
from between words, or from inside the last word of `p`. -/
theorem Split_append_of_ok (p : GoString) (ws : List GoString)
    (h : Split p = some (ws, none)) :
    (∀ q, Split (p ++ q) = some (ws ++ (scanAll .skip q []).1, (scanAll .skip q []).2)) ∨
    (∃ ws0 acc, ws = ws0 ++ [acc] ∧
      ∀ q, Split (p ++ q) = some (ws0 ++ (scanAll .raw q acc).1, (scanAll .raw q acc).2)) := by
  rw [Split_eq_scanAll, Option.some.injEq, scanAll_eq_finish] at h
  rcases finish_nil_ok _ ws h with ⟨hm, hw⟩ | ⟨hm, hw⟩
  · left
    intro q
    rw [Split_eq_scanAll, scanAll_append, Progress.finish, hm, hw, scanAll_skip_acc]
  · right
    refine ⟨_, _, hw, fun q => ?_⟩
    rw [Split_eq_scanAll, scanAll_append, Progress.finish, hm]

/-! ## Round trip through the quoter -/

theorem scanAll_sgl_quoted (w rest acc : GoString) :
    scanAll .sgl ((w.flatMap fun c =>
      if c = singleChar then [singleChar, escapeChar, singleChar, singleChar] else [c]) ++
        singleChar :: rest) acc = scanAll .raw rest (acc ++ w) := by
  induction w generalizing acc with
  | nil => simp [scanAll]
  | cons c w ih =>
    rw [List.flatMap_cons, List.append_assoc]
    by_cases hc : c = singleChar
    · subst hc
      have h1 : ¬ escapeChar = singleChar := by decide
      have h2 : ¬ escapeChar = doubleChar := by decide
      have h3 : ¬ singleChar = 0x0A := by decide
      rw [if_pos rfl]
      simp only [List.cons_append, List.nil_append]
      simp only [scanAll, if_true, if_neg h1, if_neg h2, if_neg h3]
      rw [ih]
      simp
    · rw [if_neg hc]
      simp only [List.cons_append, List.nil_append]
      simp only [scanAll, if_neg hc]
      rw [ih]
      simp

theorem scanAll_skip_quoteWord (w rest : GoString) :
    scanAll .skip (quoteWord w ++ rest) [] = scanAll .raw rest w := by
  have h1 : singleChar ∉ splitChars := by decide
  have h2 : ¬ singleChar = escapeChar := by decide
  have := scanAll_sgl_quoted w rest []
  simp only [List.nil_append] at this
  rw [← this]
  simp only [quoteWord, List.cons_append, List.append_assoc, List.singleton_append,
    List.nil_append]
  simp only [scanAll, if_neg h1, if_neg h2, if_true]

theorem scanAll_Join (S : List GoString) : scanAll .skip (Join S) [] = (S, none) := by
  induction S with
  | nil => simp [Join, scanAll]
  | cons w S ih =>
    rcases S with _ | ⟨w2, S⟩
    · have := scanAll_skip_quoteWord w []
      simp only [List.append_nil] at this
      have hj : Join [w] = quoteWord w := by simp [Join, List.intercalate]
      rw [hj, this]
      simp [scanAll]
    · have hj : Join (w :: w2 :: S) = quoteWord w ++ (0x20 :: Join (w2 :: S)) := by
        simp [Join, List.intercalate]
      have h1 : ¬ (0x20 : Nat) = singleChar := by decide
      have h2 : ¬ (0x20 : Nat) = doubleChar := by decide
      have h3 : ¬ (0x20 : Nat) = escapeChar := by decide
      have h4 : (0x20 : Nat) ∈ splitChars := by decide
      rw [hj, scanAll_skip_quoteWord]
      simp only [scanAll, if_neg h1, if_neg h2, if_neg h3, if_pos h4, ih, consWord]

/-- C1 (round trip): for every list of strings `S`, whatever the strings
hold, `Split (Join S)` returns exactly `S` and no error, where `Join` quotes
each word in single quotes, writing `'\''` for a single quote, and joins the
quoted words with one space. -/
theorem Split_Join (S : List GoString) : Split (Join S) = some (S, none) := by
  rw [Split_eq_scanAll, scanAll_Join]

/-! ## `Token` against `Split` -/

/-- C2 (Token is one step of Split): for every input and buffer, if `Split`
returns the words `w :: ws` together with the result `e` (an error or none),
then `Token` returns the token `w`, no error, and a remainder on which
`Split` returns exactly `ws` together with the same `e`. -/
theorem Token_step_of_Split (input buf w : GoString) (ws : List GoString) (e : Option Error)
    (h : Split input = some (w :: ws, e)) :
    ∃ rest reused, Token input buf = some (w, rest, reused, none) ∧
      Split rest = some (ws, e) := by
  rw [Split_eq_scanAll, Option.some.injEq, scanAll_eq_thenAll] at h
  obtain ⟨reused, ht, -⟩ := Token_eq_scanTok input buf
  cases hk : scanTok .skip input [] with
  | word w' rem =>
    rw [hk] at h ht
    simp only [Tok.thenAll, consWord, Prod.mk.injEq, List.cons.injEq] at h
    obtain ⟨⟨rfl, h1⟩, h2⟩ := h
    refine ⟨rem, reused, ht, ?_⟩
    rw [Split_eq_scanAll, ← h1, ← h2]
  | fail e' rem => rw [hk] at h; simp [Tok.thenAll] at h
  | eof => rw [hk] at h; simp [Tok.thenAll] at h

/-- C2 at the input `a b`: `Split` returns the words `a`, `b`, and `Token` returns
`a` and a remainder that splits into `b`. -/
theorem Token_step_of_Split_witness :
    Split [0x61, 0x20, 0x62] = some ([0x61] :: [[0x62]], none) ∧
    ∃ rest reused, Token [0x61, 0x20, 0x62] [0x7A] = some ([0x61], rest, reused, none) ∧
      Split rest = some ([[0x62]], none) :=
  ⟨by decide, Token_step_of_Split [0x61, 0x20, 0x62] [0x7A] [0x61] [[0x62]] none (by decide)⟩

/-- C4 (error agreement at the first word): for every input, buffer and error
`e`, `Token` returns the error `e` exactly when `Split` returns the error `e`
with an empty word list; and a token returned with an error is empty. -/
theorem Token_error_iff_Split_error (input buf : GoString) (e : Error) :
    ((∃ tok rest reused, Token input buf = some (tok, rest, reused, some e)) ↔
      Split input = some ([], some e)) ∧
    (∀ tok rest reused, Token input buf = some (tok, rest, reused, some e) → tok = []) := by
  obtain ⟨reused, ht, -⟩ := Token_eq_scanTok input buf
  rw [Split_eq_scanAll, Option.some.injEq, scanAll_eq_thenAll, ht]
  cases hk : scanTok .skip input [] with
  | word w' rem => simp [Tok.thenAll, Tok.triple, consWord]
  | fail e' rem =>
    simp only [Tok.thenAll, Tok.triple, Option.some.injEq, Prod.mk.injEq, true_and]
    constructor
    · constructor
      · rintro ⟨tok, rest, reused', -, -, -, h⟩; exact h
      · intro h; exact ⟨[], rem, reused, rfl, rfl, rfl, h⟩
    · rintro tok rest reused' ⟨h, -⟩; exact h.symm
  | eof => simp [Tok.thenAll, Tok.triple]

/-- C6 (the buffer never influences the result): for every input and every
two buffers, `Token` returns the same token, the same remainder and the same
error. -/
theorem Token_buffer_independent (input b1 b2 : GoString) :
    ∃ tok rest e r1 r2, Token input b1 = some (tok, rest, r1, e) ∧
      Token input b2 = some (tok, rest, r2, e) := by
  obtain ⟨r1, h1, -⟩ := Token_eq_scanTok input b1
  obtain ⟨r2, h2, -⟩ := Token_eq_scanTok input b2
  exact ⟨_, _, _, r1, r2, h1, h2⟩

/-! ## Composition across a separator, and the three errors -/

theorem sep_not_special (s : Nat) (hs : s ∈ splitChars) :
    ¬ s = singleChar ∧ ¬ s = doubleChar ∧ ¬ s = escapeChar := by
  simp only [splitChars, List.mem_cons, List.mem_singleton, List.not_mem_nil, or_false] at hs
  simp only [singleChar, doubleChar, escapeChar]
  omega

/-- C5 (composition across a separator): for all strings `a` and `b` and every
separator `s`, if `Split a` returns the words `ws` and no error, and `Split b`
returns the words `ws'` with the result `e`, then `Split (a ++ s ++ b)`
returns `ws ++ ws'` with the result `e`; the words before a failing word are
kept and returned with the error. -/
theorem Split_append_separator (a b : GoString) (s : Nat) (ws ws' : List GoString)
    (e : Option Error) (hs : s ∈ splitChars) (ha : Split a = some (ws, none))
    (hb : Split b = some (ws', e)) : Split (a ++ s :: b) = some (ws ++ ws', e) := by
  rw [Split_eq_scanAll, Option.some.injEq] at hb
  obtain ⟨h1, h2, h3⟩ := sep_not_special s hs
  rcases Split_append_of_ok a ws ha with h | ⟨ws0, acc, rfl, h⟩
  · rw [h]
    simp only [scanAll, if_pos hs, hb]
  · rw [h]
    simp only [scanAll, if_neg h1, if_neg h2, if_neg h3, if_pos hs, hb, consWord]
    simp

/-- C5 at `a`, a space, and `b` followed by an unterminated quote: the words `a`
and `b` are returned with the error. -/
theorem Split_append_separator_witness :
    (0x20 : Nat) ∈ splitChars ∧ Split [0x61] = some ([[0x61]], none) ∧
    Split [0x62, 0x20, 0x27] = some ([[0x62]], some .UnterminatedSingleQuoteError) ∧
    Split ([0x61] ++ 0x20 :: [0x62, 0x20, 0x27]) =
      some ([[0x61]] ++ [[0x62]], some .UnterminatedSingleQuoteError) :=
  ⟨by decide, by decide, by decide,
    Split_append_separator [0x61] [0x62, 0x20, 0x27] 0x20 [[0x61]] [[0x62]]
      (some .UnterminatedSingleQuoteError) (by decide) (by decide) (by decide)⟩

theorem scanAll_sgl_open (t acc : GoString) (h : singleChar ∉ t) :
    scanAll .sgl t acc = ([], some .UnterminatedSingleQuoteError) := by
  induction t generalizing acc with
  | nil => simp [scanAll]
  | cons c t ih =>
    have hc : ¬ c = singleChar := fun e => h (by simp [e])
    simp only [scanAll, if_neg hc]
    exact ih _ (fun hm => h (List.mem_cons_of_mem _ hm))

theorem scanAll_dbl_open (t : GoString) (h : doubleChar ∉ t) : ∀ acc,
    scanAll .dbl t acc = ([], some .UnterminatedDoubleQuoteError) ∧
    scanAll .dblEsc t acc = ([], some .UnterminatedDoubleQuoteError) := by
  induction t with
  | nil => intro acc; simp [scanAll]
  | cons c t ih =>
    intro acc
    have hc : ¬ c = doubleChar := fun e => h (by simp [e])
    have ih' := ih (fun hm => h (List.mem_cons_of_mem _ hm))
    constructor
    · simp only [scanAll, if_neg hc]
      split_ifs
      · exact (ih' _).2
      · exact (ih' _).1
    · simp only [scanAll]
      split_ifs <;> exact (ih' _).1

/-- C7 (unterminated single quote): for every string `p` on which `Split`
succeeds and every string `t` without a single quote, `Split` of `p`, a
single quote and `t` fails with `UnterminatedSingleQuoteError`. -/
theorem Split_unterminated_single (p t : GoString) (ws : List GoString)
    (hp : Split p = some (ws, none)) (ht : singleChar ∉ t) :
    ∃ ws', Split (p ++ singleChar :: t) = some (ws', some .UnterminatedSingleQuoteError) := by
  have h1 : singleChar ∉ splitChars := by decide
  have h2 : ¬ singleChar = escapeChar := by decide
  rcases Split_append_of_ok p ws hp with h | ⟨ws0, acc, -, h⟩
  · refine ⟨ws, ?_⟩
    rw [h]
    simp only [scanAll, if_neg h1, if_neg h2, if_true, scanAll_sgl_open t _ ht,
      List.append_nil]
  · refine ⟨ws0, ?_⟩
    rw [h]
    simp only [scanAll, if_true, scanAll_sgl_open t _ ht, List.append_nil]

/-- C7 at the prefix `a b` and the tail `c"`. -/
theorem Split_unterminated_single_witness :
    Split [0x61, 0x20, 0x62] = some ([[0x61], [0x62]], none) ∧ singleChar ∉ [0x63, 0x22] ∧
    ∃ ws', Split ([0x61, 0x20, 0x62] ++ singleChar :: [0x63, 0x22]) =
      some (ws', some .UnterminatedSingleQuoteError) :=
  ⟨by decide, by decide,
    Split_unterminated_single [0x61, 0x20, 0x62] [0x63, 0x22] [[0x61], [0x62]] (by decide)
      (by decide)⟩

/-- C8 (unterminated double quote): for every string `p` on which `Split`
succeeds and every string `t` without a double quote, backslashes allowed,
also a trailing one, `Split` of `p`, a double quote and `t` fails with
`UnterminatedDoubleQuoteError`. -/
theorem Split_unterminated_double (p t : GoString) (ws : List GoString)
    (hp : Split p = some (ws, none)) (ht : doubleChar ∉ t) :
    ∃ ws', Split (p ++ doubleChar :: t) = some (ws', some .UnterminatedDoubleQuoteError) := by
  have h1 : doubleChar ∉ splitChars := by decide
  have h2 : ¬ doubleChar = escapeChar := by decide
  have h3 : ¬ doubleChar = singleChar := by decide
  rcases Split_append_of_ok p ws hp with h | ⟨ws0, acc, -, h⟩
  · refine ⟨ws, ?_⟩
    rw [h]
    simp only [scanAll, if_neg h1, if_neg h2, if_neg h3, if_true,
      (scanAll_dbl_open t ht _).1, List.append_nil]
  · refine ⟨ws0, ?_⟩
    rw [h]
    simp only [scanAll, if_neg h3, if_true, (scanAll_dbl_open t ht _).1, List.append_nil]

/-- C8 at the prefix `a b` and a tail with a single quote and a trailing
backslash. -/
theorem Split_unterminated_double_witness :
    Split [0x61, 0x20, 0x62] = some ([[0x61], [0x62]], none) ∧
    doubleChar ∉ [0x63, 0x27, 0x5C] ∧
    ∃ ws', Split ([0x61, 0x20, 0x62] ++ doubleChar :: [0x63, 0x27, 0x5C]) =
      some (ws', some .UnterminatedDoubleQuoteError) :=
  ⟨by decide, by decide,
    Split_unterminated_double [0x61, 0x20, 0x62] [0x63, 0x27, 0x5C] [[0x61], [0x62]]
      (by decide) (by decide)⟩

/-- C9 (unterminated escape): for every string `p` on which `Split` succeeds,
the empty string and strings of separators included, `Split` of `p` followed
by one backslash fails with `UnterminatedEscapeError`, whether the backslash
ends a word or is met between words. -/
theorem Split_unterminated_escape (p : GoString) (ws : List GoString)
    (hp : Split p = some (ws, none)) :
    ∃ ws', Split (p ++ [escapeChar]) = some (ws', some .UnterminatedEscapeError) := by
  have h1 : escapeChar ∉ splitChars := by decide
  have h2 : ¬ escapeChar = doubleChar := by decide
  have h3 : ¬ escapeChar = singleChar := by decide
  rcases Split_append_of_ok p ws hp with h | ⟨ws0, acc, -, h⟩
  · refine ⟨ws, ?_⟩
    rw [h]
    simp only [scanAll, if_neg h1, if_true, List.append_nil]
  · refine ⟨ws0, ?_⟩
    rw [h]
    simp only [scanAll, if_neg h2, if_neg h3, if_true, List.append_nil]

/-- C9 at a prefix of three spaces. -/
theorem Split_unterminated_escape_witness :
    Split [0x20, 0x20, 0x20] = some ([], none) ∧
    ∃ ws', Split ([0x20, 0x20, 0x20] ++ [escapeChar]) =
      some (ws', some .UnterminatedEscapeError) :=
  ⟨by decide, Split_unterminated_escape [0x20, 0x20, 0x20] [] (by decide)⟩

/-! ## Whitespace collapse -/

theorem scanAll_fields (cs : GoString) (h1 : singleChar ∉ cs) (h2 : doubleChar ∉ cs)
    (h3 : escapeChar ∉ cs) :
    scanAll .skip cs [] = (fields cs, none) ∧
    ∀ acc hd tl, acc ≠ [] → (cs.splitOnP fun c => decide (c ∈ splitChars)) = hd :: tl →
      scanAll .raw cs acc = ((acc ++ hd) :: tl.filter (fun w => decide (w ≠ [])), none) := by
  induction cs with
  | nil =>
    refine ⟨by simp [scanAll, fields], ?_⟩
    intro acc hd tl _ h
    simp only [List.splitOnP_nil, List.cons.injEq] at h
    obtain ⟨rfl, rfl⟩ := h
    simp [scanAll]
  | cons c cs ih =>
    have hc1 : ¬ c = singleChar := fun e => h1 (by simp [e])
    have hc2 : ¬ c = doubleChar := fun e => h2 (by simp [e])
    have hc3 : ¬ c = escapeChar := fun e => h3 (by simp [e])
    obtain ⟨ihs, ihr⟩ := ih (fun hm => h1 (List.mem_cons_of_mem _ hm))
      (fun hm => h2 (List.mem_cons_of_mem _ hm)) (fun hm => h3 (List.mem_cons_of_mem _ hm))
    obtain ⟨hd0, tl0, hsp⟩ : ∃ hd0 tl0,
        (cs.splitOnP fun c => decide (c ∈ splitChars)) = hd0 :: tl0 := by
      cases hs : (cs.splitOnP fun c => decide (c ∈ splitChars)) with
      | nil => exact absurd hs (List.splitOnP_ne_nil _ _)
      | cons a b => exact ⟨a, b, rfl⟩
    have hf : fields cs = (hd0 :: tl0).filter (fun w => decide (w ≠ [])) := by
      rw [fields, hsp]
    by_cases hc : c ∈ splitChars
    · have hcons : ((c :: cs).splitOnP fun c => decide (c ∈ splitChars)) =
          [] :: hd0 :: tl0 := by
        rw [List.splitOnP_cons, hsp]; simp [hc]
      constructor
      · simp only [scanAll, if_pos hc, ihs, fields, hcons, hsp]
        simp
      · intro acc hd tl _ h
        rw [hcons, List.cons.injEq] at h
        obtain ⟨rfl, rfl⟩ := h
        simp only [scanAll, if_neg hc1, if_neg hc2, if_neg hc3, if_pos hc, ihs, hf, consWord]
        simp
    · have hcons : ((c :: cs).splitOnP fun c => decide (c ∈ splitChars)) =
          (c :: hd0) :: tl0 := by
        rw [List.splitOnP_cons, hsp]; simp [hc]
      constructor
      · simp only [scanAll, if_neg hc, if_neg hc1, if_neg hc2, if_neg hc3, fields, hcons]
        rw [ihr [c] hd0 tl0 (by simp) hsp]
        simp
      · intro acc hd tl _ h
        rw [hcons, List.cons.injEq] at h
        obtain ⟨rfl, rfl⟩ := h
        simp only [scanAll, if_neg hc, if_neg hc1, if_neg hc2, if_neg hc3]
        rw [ihr (acc ++ [c]) hd0 tl0 (by simp) hsp]
        simp

/-- C10 (whitespace collapse): for every input without single quote, double
quote and backslash, `Split` returns no error and exactly the maximal runs of
non-separator bytes of the input, in order; a run of separators is one
boundary, and leading and trailing separators give no word. -/
theorem Split_eq_fields (input : GoString) (h1 : singleChar ∉ input)
    (h2 : doubleChar ∉ input) (h3 : escapeChar ∉ input) :
    Split input = some (fields input, none) := by
  rw [Split_eq_scanAll, (scanAll_fields input h1 h2 h3).1]

/-- C10 at an input with leading, repeated and trailing separators of all three
kinds. -/
theorem Split_eq_fields_witness :
    singleChar ∉ [0x20, 0x68, 0x69, 0x20, 0x09, 0x0A, 0x79, 0x6F, 0x20] ∧
    doubleChar ∉ [0x20, 0x68, 0x69, 0x20, 0x09, 0x0A, 0x79, 0x6F, 0x20] ∧
    escapeChar ∉ [0x20, 0x68, 0x69, 0x20, 0x09, 0x0A, 0x79, 0x6F, 0x20] ∧
    fields [0x20, 0x68, 0x69, 0x20, 0x09, 0x0A, 0x79, 0x6F, 0x20] =
      [[0x68, 0x69], [0x79, 0x6F]] ∧
    Split [0x20, 0x68, 0x69, 0x20, 0x09, 0x0A, 0x79, 0x6F, 0x20] =
      some (fields [0x20, 0x68, 0x69, 0x20, 0x09, 0x0A, 0x79, 0x6F, 0x20], none) :=
  ⟨by decide, by decide, by decide, by decide,
    Split_eq_fields [0x20, 0x68, 0x69, 0x20, 0x09, 0x0A, 0x79, 0x6F, 0x20] (by decide)
      (by decide) (by decide)⟩

/-! ## The pull loop -/

theorem getLast?_cons_of_some (c x : Nat) (cs : GoString) (h : cs.getLast? = some x) :
    (c :: cs).getLast? = some x := by
  rw [List.getLast?_cons, h]; rfl

/-- An input that holds no token is empty or ends in a separator. -/
theorem eof_ends_in_separator (cs : GoString) :
    (∀ acc, scanTok .skip cs acc = .eof →
      cs = [] ∨ ∃ c ∈ splitChars, cs.getLast? = some c) ∧
    (∀ acc, scanTok .skipEsc cs acc = .eof → ∃ c ∈ splitChars, cs.getLast? = some c) := by
  induction cs with
  | nil => exact ⟨fun _ _ => Or.inl rfl, fun acc h => by simp [scanTok] at h⟩
  | cons c cs ih =>
    obtain ⟨ih1, ih2⟩ := ih
    have lift : (cs = [] ∨ ∃ x ∈ splitChars, cs.getLast? = some x) → c ∈ splitChars →
        ∃ x ∈ splitChars, (c :: cs).getLast? = some x := by
      rintro (rfl | ⟨x, hx, hl⟩) hc
      · exact ⟨c, hc, rfl⟩
      · exact ⟨x, hx, getLast?_cons_of_some c x cs hl⟩
    constructor
    · intro acc h
      right
      simp only [scanTok] at h
      split_ifs at h with h1 h2 h3 h4
      · exact lift (ih1 _ h) h1
      · obtain ⟨x, hx, hl⟩ := ih2 _ h
        exact ⟨x, hx, getLast?_cons_of_some c x cs hl⟩
      · exact absurd h (scanTok_ne_eof .sgl cs [] (by simp))
      · exact absurd h (scanTok_ne_eof .dbl cs [] (by simp))
      · exact absurd h (scanTok_ne_eof .raw cs [c] (by simp))
    · intro acc h
      simp only [scanTok] at h
      split_ifs at h with h1
      · exact lift (ih1 _ h) (by rw [h1]; decide)
      · exact absurd h (scanTok_ne_eof .raw cs [c] (by simp))

theorem pullTokens_spec (fuel : Nat) : ∀ (input buf : GoString) (ws : List GoString),
    input.length < fuel → scanAll .skip input [] = (ws, none) →
    ∃ toks, pullTokens fuel input buf = some (toks, none) ∧
      (toks = ws ∨ toks = ws ++ [[]]) ∧
      ((∀ c ∈ splitChars, input.getLast? ≠ some c) → toks = ws) := by
  induction fuel with
  | zero => intro input _ _ h; omega
  | succ n ih =>
    intro input buf ws hlen hws
    by_cases hne : input = []
    · subst hne
      simp only [scanAll, Prod.mk.injEq, and_true] at hws
      exact ⟨[], by simp [pullTokens], Or.inl hws, fun _ => hws⟩
    obtain ⟨reused, ht, -⟩ := Token_eq_scanTok input buf
    rw [scanAll_eq_thenAll] at hws
    cases hk : scanTok .skip input [] with
    | word w rem =>
      rw [hk] at hws ht
      simp only [Tok.thenAll, consWord, Prod.mk.injEq] at hws
      obtain ⟨hw1, hw2⟩ := hws
      obtain ⟨hsuf, hlt⟩ := scanTok_word_suffix .skip input [] w rem hk
      obtain ⟨toks, e1, e2, e3⟩ := ih rem reused (scanAll .skip rem []).1
        (by have := hlt hne; omega) (by rw [← hw2])
      refine ⟨w :: toks, ?_, ?_, ?_⟩
      · simp only [pullTokens, if_neg hne, ht, Tok.triple, e1, Option.map_some',
          Option.none_or]
      · rcases e2 with e2 | e2
        · left; rw [e2, ← hw1]
        · right; rw [e2, ← hw1]; simp
      · intro hlast
        rw [← hw1, e3]
        intro c hc hl
        obtain ⟨pre, hpre⟩ := hsuf
        have hrem : rem ≠ [] := by
          intro h; rw [h] at hl; simp at hl
        apply hlast c hc
        rw [← hpre, List.getLast?_append_of_ne_nil _ hrem, hl]
    | fail e rem => rw [hk] at hws; simp [Tok.thenAll] at hws
    | eof =>
      rw [hk] at hws ht
      simp only [Tok.thenAll, Prod.mk.injEq, and_true] at hws
      have hn : 0 < n := by
        have := List.length_pos.mpr hne
        omega
      obtain ⟨m, rfl⟩ : ∃ m, n = m + 1 := ⟨n - 1, by omega⟩
      refine ⟨[[]], ?_, Or.inr (by rw [← hws]; rfl), ?_⟩
      · simp only [pullTokens, if_neg hne, ht, Tok.triple, if_true, Option.map_some',
          Option.none_or]
      · intro hlast
        rcases (eof_ends_in_separator input).1 [] hk with h | ⟨c, hc, hl⟩
        · exact absurd h hne
        · exact absurd hl (hlast c hc)

/-- C3 at `a` followed by two spaces, where the code departs from the claim:
`Split` returns the one word `a`; the first call of `Token` returns `a` and
leaves one space, so the input is not used up when the words of `Split` are,
which is what `TestToken` reports as not consumed fully; the next call
returns an empty token, and the pull loop collects `a` and an empty token. -/
theorem pullAll_ne_Split :
    Split [0x61, 0x20, 0x20] = some ([[0x61]], none) ∧
    Token [0x61, 0x20, 0x20] [] = some ([0x61], [0x20], [0x61], none) ∧
    Token [0x20] [0x61] = some ([], [], [0x61], none) ∧
    pullAll [0x61, 0x20, 0x20] [] = some ([[0x61], []], none) ∧
    pullAll [0x61, 0x20, 0x20] [] ≠ Split [0x61, 0x20, 0x20] :=
  ⟨by decide, by decide, by decide, by decide, by decide⟩

/-- How far the pull loop can depart from `Split`: for every input on which
`Split` succeeds, the loop ends with no call of `Token` returning an error
and collects the words of `Split`, in order, followed by at most one empty
token; when the input does not end in a separator it collects exactly the
words of `Split`. -/
theorem pullAll_eq_Split (input buf : GoString) (ws : List GoString)
    (h : Split input = some (ws, none)) :
    ∃ toks, pullAll input buf = some (toks, none) ∧ (toks = ws ∨ toks = ws ++ [[]]) ∧
      ((∀ c ∈ splitChars, input.getLast? ≠ some c) → toks = ws) := by
  rw [Split_eq_scanAll, Option.some.injEq] at h
  exact pullTokens_spec (input.length + 1) input buf ws (by omega) h

/-- The pull loop at an input whose last word is an empty quoted word: the
empty word is collected and no extra token follows. -/
theorem pullAll_eq_Split_witness :
    Split [0x61, 0x20, 0x27, 0x27] = some ([[0x61], []], none) ∧
    ∃ toks, pullAll [0x61, 0x20, 0x27, 0x27] [0x7A] = some (toks, none) ∧
      (toks = [[0x61], []] ∨ toks = [[0x61], []] ++ [[]]) ∧
      ((∀ c ∈ splitChars, [0x61, 0x20, 0x27, 0x27].getLast? ≠ some c) →
        toks = [[0x61], []]) :=
  ⟨by decide, pullAll_eq_Split [0x61, 0x20, 0x27, 0x27] [0x7A] [[0x61], []] (by decide)⟩

/-! ## Spans of a word: plain bytes, quotes and escapes -/

theorem scanAll_raw_plain (p s acc : GoString)
    (h : ∀ x ∈ p, x ≠ singleChar ∧ x ≠ doubleChar ∧ x ≠ escapeChar ∧ x ∉ splitChars) :
    scanAll .raw (p ++ s) acc = scanAll .raw s (acc ++ p) := by
  rw [scanAll_eq_thenAll, scanAll_eq_thenAll, scanTok_raw_plain p s acc h]

theorem scanAll_dbl_plain (p s acc : GoString)
    (h : ∀ x ∈ p, x ≠ doubleChar ∧ x ≠ escapeChar) :
    scanAll .dbl (p ++ s) acc = scanAll .dbl s (acc ++ p) := by
  rw [scanAll_eq_thenAll, scanAll_eq_thenAll, scanTok_dbl_plain p s acc h]

/-- A span of plain bytes up to the end of the input is the rest of the last
word. -/
theorem scanAll_raw_plain_end (p acc : GoString)
    (h : ∀ x ∈ p, x ≠ singleChar ∧ x ≠ doubleChar ∧ x ≠ escapeChar ∧ x ∉ splitChars) :
    scanAll .raw p acc = ([acc ++ p], none) := by
  have := scanAll_raw_plain p [] acc h
  rw [List.append_nil] at this
  rw [this]
  simp [scanAll]

/-- A span without double quote and backslash, closed by a double quote, is
added to the word as it is. -/
theorem scanAll_dbl_close (p rest acc : GoString)
    (h : ∀ x ∈ p, x ≠ doubleChar ∧ x ≠ escapeChar) :
    scanAll .dbl (p ++ doubleChar :: rest) acc = scanAll .raw rest (acc ++ p) := by
  rw [scanAll_dbl_plain p _ acc h]
  simp only [scanAll, if_true]

/-- A span of plain bytes at the start of a word, up to a quote or a
backslash: the scanner is then in that quote or escape with the span as word
so far. -/
theorem scanAll_skip_plain (a rest : GoString)
    (h : ∀ x ∈ a, x ≠ singleChar ∧ x ≠ doubleChar ∧ x ≠ escapeChar ∧ x ∉ splitChars) :
    scanAll .skip (a ++ doubleChar :: rest) [] = scanAll .dbl rest a ∧
    scanAll .skip (a ++ singleChar :: rest) [] = scanAll .sgl rest a ∧
    ∀ c, c ≠ 0x0A →
      scanAll .skip (a ++ escapeChar :: c :: rest) [] = scanAll .raw rest (a ++ [c]) := by
  have d1 : doubleChar ∉ splitChars := by decide
  have d2 : ¬ doubleChar = escapeChar := by decide
  have d3 : ¬ doubleChar = singleChar := by decide
  have s1 : singleChar ∉ splitChars := by decide
  have s2 : ¬ singleChar = escapeChar := by decide
  have e1 : escapeChar ∉ splitChars := by decide
  have e2 : ¬ escapeChar = singleChar := by decide
  have e3 : ¬ escapeChar = doubleChar := by decide
  rcases a with _ | ⟨x, a⟩
  · refine ⟨?_, ?_, fun c hc => ?_⟩
    · simp only [List.nil_append]
      simp only [scanAll, if_neg d1, if_neg d2, if_neg d3, if_true]
    · simp only [List.nil_append]
      simp only [scanAll, if_neg s1, if_neg s2, if_true]
    · simp only [List.nil_append]
      simp only [scanAll, if_neg e1, if_true, if_neg hc]
  · obtain ⟨x1, x2, x3, x4⟩ := h x (List.mem_cons_self _ _)
    have ha : ∀ y ∈ a, y ≠ singleChar ∧ y ≠ doubleChar ∧ y ≠ escapeChar ∧ y ∉ splitChars :=
      fun y hy => h y (List.mem_cons_of_mem _ hy)
    refine ⟨?_, ?_, fun c hc => ?_⟩
    · simp only [List.cons_append]
      simp only [scanAll, if_neg x1, if_neg x2, if_neg x3, if_neg x4]
      rw [scanAll_raw_plain a _ _ ha]
      simp only [scanAll, if_neg d3, if_true, List.singleton_append]
    · simp only [List.cons_append]
      simp only [scanAll, if_neg x1, if_neg x2, if_neg x3, if_neg x4]
      rw [scanAll_raw_plain a _ _ ha]
      simp only [scanAll, if_true, List.singleton_append]
    · simp only [List.cons_append]
      simp only [scanAll, if_neg x1, if_neg x2, if_neg x3, if_neg x4]
      rw [scanAll_raw_plain a _ _ ha]
      simp only [scanAll, if_neg e2, if_neg e3, if_true, if_neg hc, List.singleton_append,
        List.cons_append, List.nil_append]

/-- C11 (a double-quoted span joins its neighbours): for all strings `a` and
`c` without separator, quote and backslash, and every string `s` without
double quote and backslash, `Split` of `a`, a double quote, `s`, a double
quote and `c` returns the single word `a ++ s ++ c` and no error; one empty
word when the three are empty. -/
theorem Split_double_quoted_span (a s c : GoString)
    (ha : ∀ x ∈ a, x ≠ singleChar ∧ x ≠ doubleChar ∧ x ≠ escapeChar ∧ x ∉ splitChars)
    (hs : ∀ x ∈ s, x ≠ doubleChar ∧ x ≠ escapeChar)
    (hc : ∀ x ∈ c, x ≠ singleChar ∧ x ≠ doubleChar ∧ x ≠ escapeChar ∧ x ∉ splitChars) :
    Split (a ++ doubleChar :: (s ++ doubleChar :: c)) = some ([a ++ s ++ c], none) := by
  rw [Split_eq_scanAll, (scanAll_skip_plain a _ ha).1, scanAll_dbl_close s c a hs,
    scanAll_raw_plain_end c _ hc]

/-- C11 at `foo"bar"baz`, and at the input of two double quotes. -/
theorem Split_double_quoted_span_witness :
    Split ([0x66, 0x6F, 0x6F] ++ doubleChar :: ([0x62, 0x20, 0x27] ++ doubleChar :: [0x7A])) =
      some ([[0x66, 0x6F, 0x6F] ++ [0x62, 0x20, 0x27] ++ [0x7A]], none) ∧
    Split ([] ++ doubleChar :: ([] ++ doubleChar :: [])) = some ([[] ++ [] ++ []], none) :=
  ⟨Split_double_quoted_span [0x66, 0x6F, 0x6F] [0x62, 0x20, 0x27] [0x7A] (by decide)
      (by decide) (by decide),
    Split_double_quoted_span [] [] [] (by decide) (by decide) (by decide)⟩

/-- A string that is one code point, that is, one that `DecodeRuneInString`
decodes in full: after its first byte it holds only bytes from 0x80 on, and
its code point is below 0x80 only when the string is that one byte. -/
theorem char_view (ch : GoString) (h0 : ch ≠ [])
    (h1 : (DecodeRuneInString ch).2 = ch.length) :
    ∃ b t, ch = b :: t ∧ (∀ x ∈ t, 128 ≤ x) ∧
      ((b < 128 ∧ (DecodeRuneInString ch).1 = b ∧ t = []) ∨
        (128 ≤ b ∧ 128 ≤ (DecodeRuneInString ch).1)) := by
  rcases ch with _ | ⟨b, t⟩
  · exact absurd rfl h0
  obtain ⟨c, l, hd, hl, hhigh, hc⟩ := decode_view b t
  rw [hd] at h1 ⊢
  simp only [List.length_cons, add_left_inj] at h1
  subst h1
  rw [List.take_length] at hhigh
  refine ⟨b, t, rfl, hhigh, ?_⟩
  rcases hc with ⟨h2, h3, h4⟩ | ⟨h2, h3⟩
  · exact Or.inl ⟨h2, h3, List.length_eq_zero.mp h4⟩
  · exact Or.inr ⟨h2, h3⟩

/-- C12 (other escapes in double quotes are kept as they are): for every
character `ch` (a string that `DecodeRuneInString` decodes in full as one code
point) whose code point is not one of dollar, backquote, double quote,
backslash and newline, and all strings `s1`, `s2` without double quote and
backslash, `Split` of a double quote, `s1`, a backslash, `ch`, `s2` and a
double quote returns the single word `s1`, backslash, `ch`, `s2`, and no
error: the backslash and the character are both kept. -/
theorem Split_double_quote_kept_escape (s1 s2 ch : GoString)
    (hs1 : ∀ x ∈ s1, x ≠ doubleChar ∧ x ≠ escapeChar)
    (hs2 : ∀ x ∈ s2, x ≠ doubleChar ∧ x ≠ escapeChar)
    (hch : ch ≠ []) (hone : (DecodeRuneInString ch).2 = ch.length)
    (hc : (DecodeRuneInString ch).1 ∉ doubleEscapeChars) :
    Split (doubleChar :: (s1 ++ escapeChar :: (ch ++ (s2 ++ [doubleChar])))) =
      some ([s1 ++ escapeChar :: (ch ++ s2)], none) := by
  obtain ⟨b, t, rfl, ht, hb⟩ := char_view ch hch hone
  have hbn : b ∉ doubleEscapeChars := by
    obtain ⟨-, -, -, -, -, h6⟩ := rune_class b _ t.length (by
      rcases hb with ⟨h1, h2, h3⟩ | h
      · exact Or.inl ⟨h1, h2, by rw [h3]; rfl⟩
      · exact Or.inr h)
    intro hm
    exact hc ((containsRune_doubleEscapeChars _).mp (h6.mpr hm))
  have d1 : doubleChar ∉ splitChars := by decide
  have d2 : ¬ doubleChar = escapeChar := by decide
  have d3 : ¬ doubleChar = singleChar := by decide
  have e3 : ¬ escapeChar = doubleChar := by decide
  have hrest : ∀ x ∈ t ++ s2, x ≠ doubleChar ∧ x ≠ escapeChar := by
    intro x hx
    rcases List.mem_append.mp hx with h | h
    · exact high_dbl_plain x (ht x h)
    · exact hs2 x h
  rw [Split_eq_scanAll]
  simp only [scanAll, if_neg d1, if_neg d2, if_neg d3, if_true]
  rw [scanAll_dbl_plain s1 _ _ hs1]
  simp only [List.cons_append, List.nil_append]
  simp only [scanAll, if_neg e3, if_true, if_neg hbn]
  rw [← List.append_assoc, scanAll_dbl_close (t ++ s2) [] _ hrest]
  simp [scanAll]

/-- C12 at the character `d`, as in `"quoted\d"`, and at a character of two
bytes. -/
theorem Split_double_quote_kept_escape_witness :
    Split (doubleChar :: ([0x71] ++ escapeChar :: ([0x64] ++ ([0x20, 0x27] ++ [doubleChar])))) =
      some ([[0x71] ++ escapeChar :: ([0x64] ++ [0x20, 0x27])], none) ∧
    Split (doubleChar :: ([] ++ escapeChar :: ([0xC3, 0xA9] ++ ([] ++ [doubleChar])))) =
      some ([[] ++ escapeChar :: ([0xC3, 0xA9] ++ [])], none) :=
  ⟨Split_double_quote_kept_escape [0x71] [0x20, 0x27] [0x64] (by decide) (by decide)
      (by decide) (by decide) (by decide),
    Split_double_quote_kept_escape [] [] [0xC3, 0xA9] (by decide) (by decide)
      (by decide) (by decide) (by decide)⟩

/-- C13 (special escapes in double quotes): for all strings `s1`, `s2` without
double quote and backslash, `Split` of a double quote, `s1`, a backslash, `c`,
`s2` and a double quote returns, with no error, the single word
`s1 ++ c ++ s2` when `c` is dollar, backquote, double quote or backslash, and
the single word `s1 ++ s2` when `c` is a newline. -/
theorem Split_double_quote_special_escape (s1 s2 : GoString) (c : Nat)
    (hs1 : ∀ x ∈ s1, x ≠ doubleChar ∧ x ≠ escapeChar)
    (hs2 : ∀ x ∈ s2, x ≠ doubleChar ∧ x ≠ escapeChar)
    (hc : c ∈ doubleEscapeChars) :
    Split (doubleChar :: (s1 ++ escapeChar :: c :: (s2 ++ [doubleChar]))) =
      some ([if c = 0x0A then s1 ++ s2 else s1 ++ c :: s2], none) := by
  have d1 : doubleChar ∉ splitChars := by decide
  have d2 : ¬ doubleChar = escapeChar := by decide
  have d3 : ¬ doubleChar = singleChar := by decide
  have e3 : ¬ escapeChar = doubleChar := by decide
  rw [Split_eq_scanAll]
  simp only [scanAll, if_neg d1, if_neg d2, if_neg d3, if_true]
  rw [scanAll_dbl_plain s1 _ _ hs1]
  simp only [List.nil_append]
  simp only [scanAll, if_neg e3, if_true, if_pos hc]
  split_ifs with h10
  · rw [scanAll_dbl_close s2 [] _ hs2]
    simp [scanAll]
  · rw [scanAll_dbl_close s2 [] _ hs2]
    simp [scanAll]

/-- C13 at an escaped double quote between `a` and `b`, and at an escaped
newline there. -/
theorem Split_double_quote_special_escape_witness :
    Split (doubleChar :: ([0x61] ++ escapeChar :: 0x22 :: ([0x62] ++ [doubleChar]))) =
      some ([if (0x22 : Nat) = 0x0A then [0x61] ++ [0x62] else [0x61] ++ 0x22 :: [0x62]],
        none) ∧
    Split (doubleChar :: ([0x61] ++ escapeChar :: 0x0A :: ([0x62] ++ [doubleChar]))) =
      some ([if (0x0A : Nat) = 0x0A then [0x61] ++ [0x62] else [0x61] ++ 0x0A :: [0x62]],
        none) :=
  ⟨Split_double_quote_special_escape [0x61] [0x62] 0x22 (by decide) (by decide) (by decide),
    Split_double_quote_special_escape [0x61] [0x62] 0x0A (by decide) (by decide) (by decide)⟩

/-- C15 (backslash escape outside quotes): for all strings `a` and `b` without
separator, quote and backslash, and every character `ch` (a string that
`DecodeRuneInString` decodes in full as one code point) other than newline, a
space, a tab, a quote or a backslash included, `Split` of `a`, a backslash,
`ch` and `b` returns the single word `a ++ ch ++ b` and no error: the
backslash is dropped and the character is taken as it is. -/
theorem Split_raw_escape (a b ch : GoString)
    (ha : ∀ x ∈ a, x ≠ singleChar ∧ x ≠ doubleChar ∧ x ≠ escapeChar ∧ x ∉ splitChars)
    (hb : ∀ x ∈ b, x ≠ singleChar ∧ x ≠ doubleChar ∧ x ≠ escapeChar ∧ x ∉ splitChars)
    (hch : ch ≠ []) (hone : (DecodeRuneInString ch).2 = ch.length)
    (hc : (DecodeRuneInString ch).1 ≠ 0x0A) :
    Split (a ++ escapeChar :: (ch ++ b)) = some ([a ++ ch ++ b], none) := by
  obtain ⟨c, t, rfl, ht, hcb⟩ := char_view ch hch hone
  have hc10 : c ≠ 0x0A := by
    rcases hcb with ⟨-, h2, -⟩ | ⟨h1, -⟩
    · rw [← h2]; exact hc
    · omega
  have hrest : ∀ x ∈ t ++ b,
      x ≠ singleChar ∧ x ≠ doubleChar ∧ x ≠ escapeChar ∧ x ∉ splitChars := by
    intro x hx
    rcases List.mem_append.mp hx with h | h
    · exact high_raw_plain x (ht x h)
    · exact hb x h
  rw [Split_eq_scanAll]
  simp only [List.cons_append]
  rw [(scanAll_skip_plain a _ ha).2.2 c hc10, scanAll_raw_plain_end _ _ hrest]
  simp

/-- C15 at `don\'t`, at an escaped space, and at an escaped backslash at the
start of the input. -/
theorem Split_raw_escape_witness :
    Split ([0x64, 0x6F, 0x6E] ++ escapeChar :: ([0x27] ++ [0x74])) =
      some ([[0x64, 0x6F, 0x6E] ++ [0x27] ++ [0x74]], none) ∧
    Split ([0x61] ++ escapeChar :: ([0x20] ++ [0x62])) =
      some ([[0x61] ++ [0x20] ++ [0x62]], none) ∧
    Split ([] ++ escapeChar :: ([0x5C] ++ [])) = some ([[] ++ [0x5C] ++ []], none) :=
  ⟨Split_raw_escape [0x64, 0x6F, 0x6E] [0x74] [0x27] (by decide) (by decide) (by decide)
      (by decide) (by decide),
    Split_raw_escape [0x61] [0x62] [0x20] (by decide) (by decide) (by decide) (by decide)
      (by decide),
    Split_raw_escape [] [] [0x5C] (by decide) (by decide) (by decide) (by decide)
      (by decide)⟩

/-! ## Line continuation outside quotes, and exhausted input -/

/-- Over a span without quote and backslash the scanner stays outside quotes
and escapes. -/
theorem scanEnd_plain_mode (a : GoString)
    (ha : ∀ x ∈ a, x ≠ singleChar ∧ x ≠ doubleChar ∧ x ≠ escapeChar) :
    ∀ (m : Mode) (acc : GoString), m = .skip ∨ m = .raw →
      (scanEnd m a acc).mode = .skip ∨ (scanEnd m a acc).mode = .raw := by
  induction a with
  | nil => intro m acc hm; simpa [scanEnd] using hm
  | cons c a ih =>
    intro m acc hm
    obtain ⟨h1, h2, h3⟩ := ha c (List.mem_cons_self _ _)
    have ih' := ih (fun y hy => ha y (List.mem_cons_of_mem _ hy))
    rcases hm with rfl | rfl
    · simp only [scanEnd, if_neg h1, if_neg h2, if_neg h3]
      split_ifs
      · exact ih' _ _ (Or.inl rfl)
      · exact ih' _ _ (Or.inr rfl)
    · simp only [scanEnd, if_neg h1, if_neg h2, if_neg h3]
      split_ifs
      · exact ih' .skip [] (Or.inl rfl)
      · exact ih' _ _ (Or.inr rfl)

/-- A backslash and a newline met outside quotes leave the scanner where it
stands. -/
theorem scanAll_continuation (m : Mode) (b acc : GoString) (hm : m = .skip ∨ m = .raw) :
    scanAll m (escapeChar :: 0x0A :: b) acc = scanAll m b acc := by
  have e1 : escapeChar ∉ splitChars := by decide
  have e2 : ¬ escapeChar = singleChar := by decide
  have e3 : ¬ escapeChar = doubleChar := by decide
  rcases hm with rfl | rfl
  · simp only [scanAll, if_neg e1, if_true]
    exact (scanAll_skip_acc b acc).symm
  · simp only [scanAll, if_neg e2, if_neg e3, if_true]

/-- C14 (escaped newline outside quotes): for all strings `a` and `b` without
single quote, double quote and backslash, separators allowed, `Split` of `a`,
a backslash, a newline and `b` returns the word list of `Split (a ++ b)`, and
no error. -/
theorem Split_escaped_newline (a b : GoString)
    (ha : ∀ x ∈ a, x ≠ singleChar ∧ x ≠ doubleChar ∧ x ≠ escapeChar)
    (hb : ∀ x ∈ b, x ≠ singleChar ∧ x ≠ doubleChar ∧ x ≠ escapeChar) :
    ∃ ws, Split (a ++ b) = some (ws, none) ∧
      Split (a ++ escapeChar :: 0x0A :: b) = some (ws, none) := by
  have hab : ∀ x ∈ a ++ b, x ≠ singleChar ∧ x ≠ doubleChar ∧ x ≠ escapeChar := by
    intro x hx
    rcases List.mem_append.mp hx with h | h
    · exact ha x h
    · exact hb x h
  have hf := (scanAll_fields (a ++ b) (fun h => (hab _ h).1 rfl) (fun h => (hab _ h).2.1 rfl)
    (fun h => (hab _ h).2.2 rfl)).1
  have hm := scanEnd_plain_mode a ha .skip [] (Or.inl rfl)
  refine ⟨fields (a ++ b), by rw [Split_eq_scanAll, hf], ?_⟩
  rw [Split_eq_scanAll, scanAll_append, Progress.finish, scanAll_continuation _ b _ hm,
    ← hf, scanAll_append, Progress.finish]

/-- C14 inside a word, `ab`, and between words, `a b`. -/
theorem Split_escaped_newline_witness :
    (∃ ws, Split ([0x61] ++ [0x62]) = some (ws, none) ∧
      Split ([0x61] ++ escapeChar :: 0x0A :: [0x62]) = some (ws, none)) ∧
    (∃ ws, Split ([0x61, 0x20] ++ [0x20, 0x62]) = some (ws, none) ∧
      Split ([0x61, 0x20] ++ escapeChar :: 0x0A :: [0x20, 0x62]) = some (ws, none)) :=
  ⟨Split_escaped_newline [0x61] [0x62] (by decide) (by decide),
    Split_escaped_newline [0x61, 0x20] [0x20, 0x62] (by decide) (by decide)⟩

/-- An input made of separators and backslash-newline pairs holds no token. -/
theorem scanTok_blank (pieces : List GoString)
    (hp : ∀ p ∈ pieces, (∃ s ∈ splitChars, p = [s]) ∨ p = [escapeChar, 0x0A]) :
    scanTok .skip pieces.flatten [] = .eof := by
  induction pieces with
  | nil => simp [scanTok]
  | cons p ps ih =>
    have ih' := ih (fun q hq => hp q (List.mem_cons_of_mem _ hq))
    have e1 : escapeChar ∉ splitChars := by decide
    rcases hp p (List.mem_cons_self _ _) with ⟨s, hs, rfl⟩ | rfl
    · simp only [List.flatten_cons, List.cons_append, List.nil_append]
      simp only [scanTok, if_pos hs, ih']
    · simp only [List.flatten_cons, List.cons_append, List.nil_append]
      simp only [scanTok, if_neg e1, if_true, ih']

/-- C16 (exhausted input): for every input made only of separators and
backslash-newline pairs, the empty input included, and every buffer, `Token`
returns the empty token, the empty remainder, the buffer itself and no error,
and `Split` returns no word and no error. -/
theorem Token_Split_blank (pieces : List GoString) (buf : GoString)
    (hp : ∀ p ∈ pieces, (∃ s ∈ splitChars, p = [s]) ∨ p = [escapeChar, 0x0A]) :
    Token pieces.flatten buf = some ([], [], buf, none) ∧
    Split pieces.flatten = some ([], none) := by
  have hk := scanTok_blank pieces hp
  obtain ⟨reused, ht, hr⟩ := Token_eq_scanTok pieces.flatten buf
  constructor
  · rw [ht, hr hk, hk]
    rfl
  · rw [Split_eq_scanAll, scanAll_eq_thenAll, hk]
    rfl

/-- C16 at a space, a backslash-newline pair, a tab and a newline, with a
buffer that holds three bytes, and at the empty input. -/
theorem Token_Split_blank_witness :
    (Token [[0x20], [escapeChar, 0x0A], [0x09], [0x0A]].flatten [1, 2, 3] =
        some ([], [], [1, 2, 3], none) ∧
      Split [[0x20], [escapeChar, 0x0A], [0x09], [0x0A]].flatten = some ([], none)) ∧
    (Token ([] : List GoString).flatten [1, 2, 3] = some ([], [], [1, 2, 3], none) ∧
      Split ([] : List GoString).flatten = some ([], none)) :=
  ⟨Token_Split_blank [[0x20], [escapeChar, 0x0A], [0x09], [0x0A]] [1, 2, 3] (by decide),
    Token_Split_blank [] [1, 2, 3] (by decide)⟩

/-! ## Progress -/

/-- The input returned with an error: nothing inside a word; between words,
the backslash that ends the input. -/
theorem scanTok_fail_suffix (cs : GoString) : ∀ (m : Mode) (acc : GoString) (e : Error)
    (rem : GoString), scanTok m cs acc = .fail e rem →
      rem <:+ (if m = .skipEsc then escapeChar :: cs else cs) := by
  induction cs with
  | nil =>
    intro m acc e rem h
    cases m <;> simp only [scanTok] at h <;> cases h <;> simp
  | cons c cs ih =>
    intro m acc e rem h
    have key : ∀ m' acc', m' ≠ .skipEsc → scanTok m' cs acc' = .fail e rem →
        rem <:+ c :: cs := by
      intro m' acc' hm' h'
      have h1 := ih m' acc' e rem h'
      rw [if_neg hm'] at h1
      exact h1.trans (List.suffix_cons c cs)
    cases m with
    | skip =>
      rw [if_neg (by simp)]
      simp only [scanTok] at h
      split_ifs at h with h1 h2 h3 h4
      · exact key _ _ (by simp) h
      · have h5 := ih .skipEsc _ e rem h
        rw [if_pos rfl] at h5
        rw [h2]; exact h5
      · exact key _ _ (by simp) h
      · exact key _ _ (by simp) h
      · exact key _ _ (by simp) h
    | skipEsc =>
      rw [if_pos rfl]
      simp only [scanTok] at h
      split_ifs at h
      · exact (key _ _ (by simp) h).trans (List.suffix_cons _ _)
      · exact (key _ _ (by simp) h).trans (List.suffix_cons _ _)
    | raw =>
      rw [if_neg (by simp)]
      simp only [scanTok] at h
      split_ifs at h
      · exact key _ _ (by simp) h
      · exact key _ _ (by simp) h
      · exact key _ _ (by simp) h
      · exact key _ _ (by simp) h
    | esc =>
      rw [if_neg (by simp)]
      simp only [scanTok] at h
      split_ifs at h <;> exact key _ _ (by simp) h
    | sgl =>
      rw [if_neg (by simp)]
      simp only [scanTok] at h
      split_ifs at h <;> exact key _ _ (by simp) h
    | dbl =>
      rw [if_neg (by simp)]
      simp only [scanTok] at h
      split_ifs at h <;> exact key _ _ (by simp) h
    | dblEsc =>
      rw [if_neg (by simp)]
      simp only [scanTok] at h
      split_ifs at h <;> exact key _ _ (by simp) h

/-- What `Token` returns as remainder is a suffix of its input, and a proper
one when the input is not empty and there is no error. -/
theorem Token_remainder (input buf : GoString) :
    ∃ tok rest reused e, Token input buf = some (tok, rest, reused, e) ∧ rest <:+ input ∧
      (input ≠ [] → e = none → rest.length < input.length) := by
  obtain ⟨reused, ht, -⟩ := Token_eq_scanTok input buf
  refine ⟨_, _, reused, _, ht, ?_, ?_⟩
  · cases hk : scanTok .skip input [] with
    | word w rem => exact (scanTok_word_suffix .skip input [] w rem hk).1
    | fail e rem =>
      have := scanTok_fail_suffix input .skip [] e rem hk
      rw [if_neg (by simp)] at this
      exact this
    | eof => exact List.nil_suffix
  · intro hne he
    cases hk : scanTok .skip input [] with
    | word w rem => exact (scanTok_word_suffix .skip input [] w rem hk).2 hne
    | fail e rem => rw [hk] at he; simp [Tok.triple] at he
    | eof => exact List.length_pos.mpr hne

/-- An error comes with an empty remainder, except for a backslash that ends
the input between words: `UnterminatedEscapeError` then comes with that
backslash as remainder. -/
theorem scanTok_fail_cases (cs : GoString) : ∀ (m : Mode) (acc : GoString) (e : Error)
    (rem : GoString), scanTok m cs acc = .fail e rem →
      rem = [] ∨ (e = .UnterminatedEscapeError ∧ rem = [escapeChar]) := by
  induction cs with
  | nil =>
    intro m acc e rem h
    cases m <;> simp only [scanTok] at h <;> cases h <;> simp
  | cons c cs ih =>
    intro m acc e rem h
    cases m <;> simp only [scanTok] at h <;> split_ifs at h <;> exact ih _ _ e rem h

theorem Token_error_remainder (input buf tok rest reused : GoString) (err : Error)
    (h : Token input buf = some (tok, rest, reused, some err)) :
    rest = [] ∨ (err = .UnterminatedEscapeError ∧ rest = [escapeChar]) := by
  obtain ⟨reused', ht, -⟩ := Token_eq_scanTok input buf
  rw [ht] at h
  cases hk : scanTok .skip input [] with
  | word w rem => rw [hk] at h; simp [Tok.triple] at h
  | fail e rem =>
    rw [hk] at h
    simp only [Tok.triple, Option.some.injEq, Prod.mk.injEq] at h
    obtain ⟨-, rfl, -, rfl⟩ := h
    exact scanTok_fail_cases input .skip [] e rem hk
  | eof => rw [hk] at h; simp [Tok.triple] at h

/-- On a lone backslash `Token` returns the input unchanged, so the pull loop
that goes on after an error never reaches the empty remainder. -/
theorem pullTokens_backslash (fuel : Nat) :
    ∀ buf : GoString, pullTokens fuel [escapeChar] buf = none := by
  induction fuel with
  | zero => intro buf; rfl
  | succ n ih =>
    intro buf
    obtain ⟨reused, ht, -⟩ := Token_eq_scanTok [escapeChar] buf
    have hk : scanTok .skip [escapeChar] [] =
        .fail .UnterminatedEscapeError [escapeChar] := by decide
    rw [hk] at ht
    have hne : ¬ [escapeChar] = ([] : GoString) := by simp
    simp only [pullTokens, if_neg hne, ht, Tok.triple, ih reused, Option.map_none']

/-- The two caller's loops.  The loop that stops at the first error ends on
every input, within as many calls as the input has bytes, plus one.  The loop
without that exit ends, within the same number of calls, when the first one
stops with an empty remainder, and never ends otherwise. -/
theorem pull_loops (n : Nat) : ∀ input buf : GoString, input.length ≤ n →
    ∃ toks e rest,
      (∀ fuel, input.length < fuel → pullUntilError fuel input buf = some (toks, e, rest)) ∧
      (rest = [] → ∃ r, ∀ fuel, input.length < fuel → pullTokens fuel input buf = some r) ∧
      (rest ≠ [] → e = some .UnterminatedEscapeError ∧ rest = [escapeChar] ∧
        ∀ fuel, pullTokens fuel input buf = none) := by
  induction n with
  | zero =>
    intro input buf h
    have : input = [] := List.length_eq_zero.mp (by omega)
    subst this
    refine ⟨[], none, [], fun fuel hf => ?_, fun _ => ⟨([], none), fun fuel hf => ?_⟩,
      fun h => absurd rfl h⟩
    · obtain ⟨k, rfl⟩ : ∃ k, fuel = k + 1 := ⟨fuel - 1, by simp at hf; omega⟩
      simp [pullUntilError]
    · obtain ⟨k, rfl⟩ : ∃ k, fuel = k + 1 := ⟨fuel - 1, by simp at hf; omega⟩
      simp [pullTokens]
  | succ n ih =>
    intro input buf h
    by_cases hne : input = []
    · subst hne
      refine ⟨[], none, [], fun fuel hf => ?_, fun _ => ⟨([], none), fun fuel hf => ?_⟩,
        fun h => absurd rfl h⟩
      · obtain ⟨k, rfl⟩ : ∃ k, fuel = k + 1 := ⟨fuel - 1, by simp at hf; omega⟩
        simp [pullUntilError]
      · obtain ⟨k, rfl⟩ : ∃ k, fuel = k + 1 := ⟨fuel - 1, by simp at hf; omega⟩
        simp [pullTokens]
    have hpos : 0 < input.length := List.length_pos.mpr hne
    obtain ⟨tok, rest1, reused, e1, ht, -, hlt⟩ := Token_remainder input buf
    cases e1 with
    | none =>
      have hr := hlt hne rfl
      obtain ⟨toks, e, rest, h1, h2, h3⟩ := ih rest1 reused (by omega)
      refine ⟨tok :: toks, e, rest, fun fuel hf => ?_, fun hrest => ?_, fun hrest => ?_⟩
      · obtain ⟨k, rfl⟩ : ∃ k, fuel = k + 1 := ⟨fuel - 1, by omega⟩
        simp only [pullUntilError, if_neg hne, ht, h1 k (by omega), Option.map_some']
      · obtain ⟨r, hr'⟩ := h2 hrest
        refine ⟨(tok :: r.1, r.2), fun fuel hf => ?_⟩
        obtain ⟨k, rfl⟩ : ∃ k, fuel = k + 1 := ⟨fuel - 1, by omega⟩
        simp only [pullTokens, if_neg hne, ht, hr' k (by omega), Option.map_some',
          Option.none_or]
      · obtain ⟨h4, h5, h6⟩ := h3 hrest
        refine ⟨h4, h5, fun fuel => ?_⟩
        rcases fuel with _ | k
        · rfl
        · simp only [pullTokens, if_neg hne, ht, h6 k, Option.map_none']
    | some err =>
      refine ⟨[], some err, rest1, fun fuel hf => ?_, fun hrest => ?_, fun hrest => ?_⟩
      · obtain ⟨k, rfl⟩ : ∃ k, fuel = k + 1 := ⟨fuel - 1, by omega⟩
        simp only [pullUntilError, if_neg hne, ht]
      · subst hrest
        refine ⟨([tok], some err), fun fuel hf => ?_⟩
        obtain ⟨k, rfl⟩ : ∃ k, fuel = k + 2 := ⟨fuel - 2, by omega⟩
        simp [pullTokens, hne, ht]
      · rcases Token_error_remainder input buf tok rest1 reused err ht with h0 | ⟨h4, h5⟩
        · exact absurd h0 hrest
        · refine ⟨by rw [h4], h5, fun fuel => ?_⟩
          rcases fuel with _ | k
          · rfl
          · subst h5
            simp only [pullTokens, if_neg hne, ht, pullTokens_backslash k reused,
              Option.map_none']

/-- C17, the claim as stated fails: on a lone backslash `Token` returns the
error `UnterminatedEscapeError` and the whole input as remainder, so a
caller's loop that feeds the remainder back into `Token` until it is empty
never ends, whatever the number of calls allowed. -/
theorem pullTokens_never_ends :
    Token [0x5C] [] = some ([], [0x5C], [], some .UnterminatedEscapeError) ∧
    ¬ ∃ fuel r, pullTokens fuel [0x5C] [] = some r := by
  refine ⟨by decide, ?_⟩
  rintro ⟨fuel, r, h⟩
  have := pullTokens_backslash fuel []
  rw [show ([escapeChar] : GoString) = [0x5C] from rfl] at this
  rw [this] at h
  exact absurd h (by simp)

/-- C17 (amended): for every input and buffer, the remainder returned by
`Token` is a suffix of the input, and is strictly shorter than a non-empty
input when `Token` returns no error.  So the loop of `Split` ends on every
input, within as many iterations as the input has bytes, plus one, and so
does a caller's loop that feeds the remainder back to `Token` until it is
empty or an error is returned.  A caller's loop without the exit at an error
ends, within the same number of calls, exactly when no call returns an error
together with a non-empty remainder; otherwise the error is
`UnterminatedEscapeError`, the remainder is the backslash that ends the
input, and the loop never ends. -/
theorem Token_progress (input buf : GoString) :
    (∃ tok rest reused e, Token input buf = some (tok, rest, reused, e) ∧ rest <:+ input ∧
      (input ≠ [] → e = none → rest.length < input.length)) ∧
    (∃ r, Split input = some r ∧
      ∀ fuel, input.length < fuel → SplitLoop fuel input [] [] = some r) ∧
    (∃ toks e rest,
      (∀ fuel, input.length < fuel → pullUntilError fuel input buf = some (toks, e, rest)) ∧
      (rest = [] → ∃ r, pullAll input buf = some r ∧
        ∀ fuel, input.length < fuel → pullTokens fuel input buf = some r) ∧
      (rest ≠ [] → e = some .UnterminatedEscapeError ∧ rest = [escapeChar] ∧
        ∀ fuel, pullTokens fuel input buf = none)) := by
  refine ⟨Token_remainder input buf, ⟨scanAll .skip input [], Split_eq_scanAll input, ?_⟩, ?_⟩
  · intro fuel hf
    have := SplitLoop_spec fuel input [] [] hf
    simpa using this
  · obtain ⟨toks, e, rest, h1, h2, h3⟩ := pull_loops input.length input buf (le_refl _)
    refine ⟨toks, e, rest, h1, fun hrest => ?_, h3⟩
    obtain ⟨r, hr⟩ := h2 hrest
    exact ⟨r, hr _ (by omega), hr⟩

/-! ## The words are cut out of the input -/

theorem sublist_step (out acc p Y X : GoString) (hX : List.Sublist (p ++ Y) X)
    (h : out = [] ∨ ∃ sub, List.Sublist sub Y ∧ out = (acc ++ p) ++ sub) :
    out = [] ∨ ∃ sub, List.Sublist sub X ∧ out = acc ++ sub := by
  rcases h with h | ⟨sub, h1, h2⟩
  · exact Or.inl h
  · exact Or.inr ⟨p ++ sub, ((List.append_sublist_append_left p).mpr h1).trans hX,
      by rw [h2, List.append_assoc]⟩

/-- The bytes of the words from a point of the scan on are the bytes of the
word under construction followed by bytes copied, in order, from the input
that is left. -/
theorem scanAll_sublist (cs : GoString) : ∀ (m : Mode) (acc : GoString),
    (scanAll m cs acc).1.flatten = [] ∨
      ∃ sub, List.Sublist sub (m.pending ++ cs) ∧ (scanAll m cs acc).1.flatten = m.carry acc ++ sub := by
  induction cs with
  | nil =>
    intro m acc
    cases m <;> simp [scanAll, Mode.carry]
  | cons c cs ih =>
    intro m acc
    have nx : ∀ (m' : Mode) (acc' : GoString), m'.carry acc' = acc' →
        (scanAll m' cs acc').1.flatten = [] ∨
          ∃ sub, List.Sublist sub (m'.pending ++ cs) ∧ (scanAll m' cs acc').1.flatten = acc' ++ sub := by
      intro m' acc' hm'
      have := ih m' acc'
      rw [hm'] at this
      exact this
    cases m with
    | skip =>
      simp only [scanAll, Mode.pending, Mode.carry, List.nil_append]
      split_ifs
      · exact sublist_step _ [] [] cs _ (by simp) (by simpa using nx .skip [] rfl)
      · exact sublist_step _ [] [] cs _ (by simp) (by simpa using nx .skipEsc [] rfl)
      · exact sublist_step _ [] [] cs _ (by simp) (by simpa using nx .sgl [] rfl)
      · exact sublist_step _ [] [] cs _ (by simp) (by simpa using nx .dbl [] rfl)
      · exact sublist_step _ [] [c] cs _ (by simp) (by simpa using nx .raw [c] rfl)
    | skipEsc =>
      simp only [scanAll, Mode.pending, Mode.carry, List.nil_append]
      split_ifs
      · exact sublist_step _ [] [] cs _ (by simp) (by simpa using nx .skip [] rfl)
      · exact sublist_step _ [] [c] cs _ (by simp) (by simpa using nx .raw [c] rfl)
    | raw =>
      simp only [scanAll, Mode.pending, Mode.carry, List.nil_append]
      split_ifs
      · exact sublist_step _ acc [] cs _ (by simp) (by simpa using nx .sgl acc rfl)
      · exact sublist_step _ acc [] cs _ (by simp) (by simpa using nx .dbl acc rfl)
      · exact sublist_step _ acc [] cs _ (by simp) (by simpa using nx .esc acc rfl)
      · right
        refine ⟨(scanAll .skip cs []).1.flatten, ?_, by simp [consWord]⟩
        rcases nx .skip [] rfl with h | ⟨sub, h1, h2⟩
        · rw [h]; exact List.nil_sublist _
        · rw [h2]
          simpa [Mode.pending] using h1.trans (List.sublist_cons_self c cs)
      · exact sublist_step _ acc [c] cs _ (by simp) (by simpa using nx .raw (acc ++ [c]) rfl)
    | esc =>
      simp only [scanAll, Mode.pending, Mode.carry, List.nil_append]
      split_ifs
      · exact sublist_step _ acc [] cs _ (by simp) (by simpa using nx .raw acc rfl)
      · exact sublist_step _ acc [c] cs _ (by simp) (by simpa using nx .raw (acc ++ [c]) rfl)
    | sgl =>
      simp only [scanAll, Mode.pending, Mode.carry, List.nil_append]
      split_ifs
      · exact sublist_step _ acc [] cs _ (by simp) (by simpa using nx .raw acc rfl)
      · exact sublist_step _ acc [c] cs _ (by simp) (by simpa using nx .sgl (acc ++ [c]) rfl)
    | dbl =>
      simp only [scanAll, Mode.pending, Mode.carry, List.nil_append]
      split_ifs with h1 h2
      · exact sublist_step _ acc [] cs _ (by simp) (by simpa using nx .raw acc rfl)
      · exact sublist_step _ acc [] (escapeChar :: cs) _ (by simp [h2])
          (by simpa [Mode.pending] using nx .dblEsc acc rfl)
      · exact sublist_step _ acc [c] cs _ (by simp) (by simpa using nx .dbl (acc ++ [c]) rfl)
    | dblEsc =>
      simp only [scanAll, Mode.pending, Mode.carry]
      split_ifs
      · exact sublist_step _ acc [] cs _ (by simp) (by simpa using nx .dbl acc rfl)
      · exact sublist_step _ acc [c] cs _ (by simp) (by simpa using nx .dbl (acc ++ [c]) rfl)
      · exact sublist_step _ acc [escapeChar, c] cs _ (by simp)
          (by simpa using nx .dbl (acc ++ [escapeChar, c]) rfl)

/-- C18 (Split only deletes): for every input, the words returned by `Split`,
one after the other, are a subsequence of the input: every byte of a word is
copied from the input, in input order; so the lengths of the words add up to
at most the length of the input. -/
theorem Split_words_sublist (input : GoString) :
    ∃ ws e, Split input = some (ws, e) ∧ List.Sublist ws.flatten input ∧
      (ws.map List.length).sum ≤ input.length := by
  have hsub : List.Sublist (scanAll .skip input []).1.flatten input := by
    rcases scanAll_sublist input .skip [] with h | ⟨sub, h1, h2⟩
    · rw [h]; exact List.nil_sublist _
    · rw [h2]
      simpa [Mode.pending, Mode.carry] using h1
  refine ⟨_, _, Split_eq_scanAll input, hsub, ?_⟩
  have := hsub.length_le
  rwa [List.length_flatten] at this

/-! ## Empty words -/

/-- Without quotes, a word under construction is never empty, and so is no
word of the result. -/
theorem scanAll_nonempty (cs : GoString) (h1 : singleChar ∉ cs) (h2 : doubleChar ∉ cs) :
    ∀ (m : Mode) (acc : GoString),
      m = .skip ∨ m = .skipEsc ∨ ((m = .raw ∨ m = .esc) ∧ acc ≠ []) →
      ∀ w ∈ (scanAll m cs acc).1, w ≠ [] := by
  induction cs with
  | nil =>
    intro m acc hm w hw
    rcases hm with rfl | rfl | ⟨rfl | rfl, hacc⟩ <;> simp [scanAll] at hw
    rw [hw]; exact hacc
  | cons c cs ih =>
    intro m acc hm
    have hc1 : ¬ c = singleChar := fun e => h1 (by simp [e])
    have hc2 : ¬ c = doubleChar := fun e => h2 (by simp [e])
    have ih' := ih (fun hm => h1 (List.mem_cons_of_mem _ hm))
      (fun hm => h2 (List.mem_cons_of_mem _ hm))
    rcases hm with rfl | rfl | ⟨rfl | rfl, hacc⟩
    · simp only [scanAll, if_neg hc1, if_neg hc2]
      split_ifs
      · exact ih' _ _ (Or.inl rfl)
      · exact ih' _ _ (Or.inr (Or.inl rfl))
      · exact ih' _ _ (Or.inr (Or.inr ⟨Or.inl rfl, by simp⟩))
    · simp only [scanAll]
      split_ifs
      · exact ih' _ _ (Or.inl rfl)
      · exact ih' _ _ (Or.inr (Or.inr ⟨Or.inl rfl, by simp⟩))
    · simp only [scanAll, if_neg hc1, if_neg hc2]
      split_ifs
      · exact ih' _ _ (Or.inr (Or.inr ⟨Or.inr rfl, hacc⟩))
      · intro w hw
        simp only [consWord, List.mem_cons] at hw
        rcases hw with rfl | hw
        · exact hacc
        · exact ih' .skip [] (Or.inl rfl) w hw
      · exact ih' _ _ (Or.inr (Or.inr ⟨Or.inl rfl, by simp⟩))
    · simp only [scanAll]
      split_ifs
      · exact ih' _ _ (Or.inr (Or.inr ⟨Or.inl rfl, hacc⟩))
      · exact ih' _ _ (Or.inr (Or.inr ⟨Or.inl rfl, by simp⟩))

/-- C19 (empty words arise only from quotes): for every input without single
quote and double quote, every word that `Split` returns is non-empty, whether
or not an error is returned with the words. -/
theorem Split_words_nonempty (input : GoString) (h1 : singleChar ∉ input)
    (h2 : doubleChar ∉ input) :
    ∃ ws e, Split input = some (ws, e) ∧ ∀ w ∈ ws, w ≠ [] :=
  ⟨_, _, Split_eq_scanAll input, scanAll_nonempty input h1 h2 .skip [] (Or.inl rfl)⟩

/-- C19 at an input with separators, escapes and a backslash-newline pair
that ends in a lone backslash: the words before the error are not empty. -/
theorem Split_words_nonempty_witness :
    singleChar ∉ [0x20, 0x5C, 0x20, 0x61, 0x20, 0x5C, 0x0A, 0x20, 0x62, 0x5C] ∧
    doubleChar ∉ [0x20, 0x5C, 0x20, 0x61, 0x20, 0x5C, 0x0A, 0x20, 0x62, 0x5C] ∧
    Split [0x20, 0x5C, 0x20, 0x61, 0x20, 0x5C, 0x0A, 0x20, 0x62, 0x5C] =
      some ([[0x20, 0x61]], some .UnterminatedEscapeError) ∧
    ∃ ws e, Split [0x20, 0x5C, 0x20, 0x61, 0x20, 0x5C, 0x0A, 0x20, 0x62, 0x5C] =
      some (ws, e) ∧ ∀ w ∈ ws, w ≠ [] :=
  ⟨by decide, by decide, by decide,
    Split_words_nonempty [0x20, 0x5C, 0x20, 0x61, 0x20, 0x5C, 0x0A, 0x20, 0x62, 0x5C]
      (by decide) (by decide)⟩

end Shellquote
